import Mathlib

/-!
Verification of the statistical core of go-moremath (package stats):
the Mann-Whitney U distribution (`udist.go`), the Mann-Whitney U-test
(`utest.go`) and quantile confidence intervals (`quantileci.go`).

Floating-point values of the Go code are modelled as exact rationals
(`ℚ`); external mathematical collaborators that are not part of the
repository core (the normal distribution's CDF and inverse CDF, and
`math.Sqrt`) are passed in as explicit function parameters, so every
theorem quantifies over them (with the hypotheses on them stated
explicitly where a property depends on them).
-/

namespace MoreMath

/-- Modelled from the spec: `mathx.Choose` / the repository's `choose`
helper is the binomial coefficient C(n, k) (the function itself lives
outside `src/`; the spec describes it as C(·,·)). -/
def choose (n k : ℕ) : ℕ := Nat.choose n k

/-- Modelled from the spec: `sumint` (helper outside `src/`) sums a
slice of integers. -/
def sumint (xs : List ℕ) : ℕ := xs.sum

/-- Modelled from the spec: `sign` (helper outside `src/`) returns the
sign of a float (+1, -1 or 0), used for the continuity correction
"∓0.5 toward zero". -/
def sign (x : ℚ) : ℚ := if x > 0 then 1 else if x < 0 then -1 else 0

/-- `UDist` from `udist.go`: the discrete distribution of the
Mann-Whitney U statistic for samples of sizes `N1` and `N2`, with tie
vector `T` (empty meaning no ties). -/
structure UDist where
  N1 : ℕ
  N2 : ℕ
  T : List ℕ := []
deriving DecidableEq, Repr

/-- `UDist.hasTies` from `udist.go`: true if any tie count exceeds 1. -/
def UDist.hasTies (d : UDist) : Bool := d.T.any (fun t => decide (1 < t))

/-- `UDist.Step` from `udist.go`: the Go method body is literally
`return 0.5`. -/
def UDist.Step (_ : UDist) : ℚ := 0.5

/-- `UDist.Bounds` from `udist.go`. -/
def UDist.Bounds (d : UDist) : ℚ × ℚ := (0, (d.N1 * d.N2 : ℕ))

/-!
### The Mann-Whitney recurrence p_{n,m}(U)

`mwP n m U` is the function defined by the recurrence of Mann & Whitney
(1947), quoted by the spec:

  p_{n,m}(U) = (n·p_{n-1,m}(U-m) + m·p_{n,m-1}(U)) / (n+m)
  p_{n,m}(U) = 0                             if U < 0
  p_{0,m}(U) = p_{n,0}(U) = 1/C(n+m,n)       if U = 0   (this is 1)
                          = 0                if U > 0

It is defined by structural recursion (outer on n, inner on m) so that
it evaluates by kernel reduction.
-/

/-- Inner recursion (on m) of the Mann-Whitney recurrence, with `prev`
the already-constructed function p_{n-1,·,·}. -/
def mwPRow (prev : ℕ → ℤ → ℚ) (n : ℕ) : ℕ → ℤ → ℚ
  | 0, U => if U = 0 then 1 else 0
  | m+1, U =>
    if U < 0 then 0
    else ((n : ℚ) * prev (m+1) (U - (m+1)) + ((m : ℚ)+1) * mwPRow prev n m U) / ((n : ℚ) + (m+1))

/-- The Mann-Whitney recurrence function p_{n,m}(U). -/
def mwP : ℕ → ℕ → ℤ → ℚ
  | 0 => fun _ U => if U = 0 then 1 else 0
  | n+1 => mwPRow (mwP n) (n+1)

/-- p_{n,m}(U) = 0 for U < 0 (one of the defining equations). -/
theorem mwP_neg (n m : ℕ) (U : ℤ) (hU : U < 0) : mwP n m U = 0 := by
  cases n with
  | zero => simp [mwP]; omega
  | succ n =>
    cases m with
    | zero => simp [mwP, mwPRow]; omega
    | succ m => simp [mwP, mwPRow, hU]

/-- p_{0,m}(0) = 1/C(0+m,0) = 1 (base case of the recurrence). -/
theorem mwP_zero_left (m : ℕ) : mwP 0 m 0 = 1 / (choose (0 + m) 0 : ℚ) := by
  simp [mwP, choose]

/-- p_{n,0}(0) = 1/C(n+0,n) = 1 (base case of the recurrence). -/
theorem mwP_zero_right (n : ℕ) : mwP n 0 0 = 1 / (choose (n + 0) n : ℚ) := by
  cases n with
  | zero => simp [mwP, choose]
  | succ n => simp [mwP, mwPRow, choose]

/-- p_{0,m}(U) = 0 for U ≠ 0. -/
theorem mwP_base_left (m : ℕ) (U : ℤ) (hU : U ≠ 0) : mwP 0 m U = 0 := by
  simp [mwP, hU]

/-- p_{n,0}(U) = 0 for U ≠ 0. -/
theorem mwP_base_right (n : ℕ) (U : ℤ) (hU : U ≠ 0) : mwP n 0 U = 0 := by
  cases n with
  | zero => simp [mwP, hU]
  | succ n => simp [mwP, mwPRow, hU]

/-- The recursive step of the Mann-Whitney recurrence, exactly as the
spec states it, for n, m ≥ 1 and U ≥ 0. -/
theorem mwP_rec (n m : ℕ) (U : ℤ) (hU : 0 ≤ U) :
    mwP (n+1) (m+1) U
      = (((n : ℚ)+1) * mwP n (m+1) (U - (m+1)) + ((m : ℚ)+1) * mwP (n+1) m U) / (((n : ℚ)+1) + ((m : ℚ)+1)) := by
  have h : ¬ (U < 0) := not_lt.mpr hU
  simp [mwP, mwPRow, h]

/-!
### The dynamic-programming table of `UDist.p` (udist.go)

The Go code keeps a slice `memo` of N+1 rows, each a slice of U+1
floats; we model the table as a function `ℕ → ℕ → ℚ` (row → U → value)
and each loop as structural recursion on its trip count, reading old
values exactly where the Go code does (the in-place overwrite of
`out[U1]` happens after `rp[U1]` is read at the same index, so the
functional update below reads only the pre-iteration table).
-/

/-- `memo[0][0] = 1` at the start of each outer (m) iteration. -/
def pSetBase (memo : ℕ → ℕ → ℚ) : ℕ → ℕ → ℚ :=
  fun i u => if i = 0 ∧ u = 0 then 1 else memo i u

/-- One iteration of the inner (n) loop of `UDist.p`: recompute row n
for `U1 ≤ ulim = min (n*m) U` from `lp = memo[n-1]` and
`rp = memo[n]` (if n ≤ m-1) or `memo[m-1]` (if n = m). -/
def pInnerStep (m U : ℕ) (memo : ℕ → ℕ → ℚ) (n : ℕ) : ℕ → ℕ → ℚ :=
  fun i u =>
    if i = n then
      if u ≤ min (n * m) U then
        ((n : ℚ) * (if m ≤ u then memo (n-1) (u - m) else 0)
          + (m : ℚ) * (if n ≤ m - 1 then memo n u else memo (m-1) u)) / ((n : ℚ) + (m : ℚ))
      else memo n u
    else memo i u

/-- The inner (n) loop of `UDist.p`, running iterations n = 1..k. -/
def pInnerLoop (m U : ℕ) (memo : ℕ → ℕ → ℚ) : ℕ → (ℕ → ℕ → ℚ)
  | 0 => memo
  | k+1 => pInnerStep m U (pInnerLoop m U memo k) (k+1)

/-- One iteration of the outer (m) loop of `UDist.p`: set the base
case, then run the inner loop up to `nlim = min N m`. -/
def pOuterStep (N U : ℕ) (memo : ℕ → ℕ → ℚ) (m : ℕ) : ℕ → ℕ → ℚ :=
  pInnerLoop m U (pSetBase memo) (min N m)

/-- The outer (m) loop of `UDist.p`, running iterations m = 0..m,
starting from the all-zero table produced by `make`. -/
def pLoop (N U : ℕ) : ℕ → (ℕ → ℕ → ℚ)
  | 0 => pOuterStep N U (fun _ _ => 0) 0
  | m+1 => pOuterStep N U (pLoop N U m) (m+1)

/-- `UDist.p` from `udist.go`: the final row `memo[N]` of the table
(N = min(N1,N2), after the outer loop has run m = 0..M = max(N1,N2)),
as a function of the U index. -/
def UDist.p (d : UDist) (U : ℕ) : ℕ → ℚ :=
  pLoop (min d.N1 d.N2) U (max d.N1 d.N2) (min d.N1 d.N2)

/-!
### `UDist.permCount` (udist.go, tied case)

The Go code enumerates every vector u with 0 ≤ u_i ≤ T_i using an
odometer-style counter (increment the last entry, carry overflowing
entries leftward); `boxList` generates exactly that sequence of
vectors in the same (lexicographic) order, and `permCount` folds the
Go loop body over it.
-/

/-- All vectors u with 0 ≤ u_i ≤ t_i, in the lexicographic order the
odometer of `UDist.permCount` visits them. -/
def boxList : List ℕ → List (List ℕ)
  | [] => [[]]
  | t :: ts => (List.range (t+1)).flatMap fun i => (boxList ts).map (i :: ·)

/-- The incremental 2U computation of `UDist.permCount`:
`twoU += 2*vsum*u_i + u_i*v_i; vsum += v_i` with `v_i = T_i - u_i`. -/
def twoUAux : List (ℕ × ℕ) → ℤ → ℤ
  | [], _ => 0
  | (ui, ti) :: rest, vsum =>
    (2 * vsum * ui + ui * ((ti : ℤ) - (ui : ℤ))) + twoUAux rest (vsum + ((ti : ℤ) - (ui : ℤ)))

/-- The 2U statistic of a split vector u under tie vector T. -/
def twoUOf (T u : List ℕ) : ℤ := twoUAux (u.zip T) 0

/-- `prod = Π choose(T_i, u_i)`: the number of permutations of the
input sample consistent with split vector u. -/
def permProd (T u : List ℕ) : ℕ := ((u.zip T).map fun p => choose p.2 p.1).prod

/-- `UDist.permCount` from `udist.go`: total multiplicity of the split
vectors whose 2U statistic is ≤ (`cmp < 0`), = (`cmp = 0`) or ≥
(`cmp > 0`) `twoUthresh`, among those with `sum(u) = N1`. -/
def UDist.permCount (d : UDist) (twoUthresh : ℤ) (cmp : ℤ) : ℚ :=
  ((boxList d.T).map fun u =>
    if sumint u ≠ d.N1 then 0
    else if cmp < 0 ∧ twoUthresh < twoUOf d.T u then 0
    else if cmp = 0 ∧ twoUOf d.T u ≠ twoUthresh then 0
    else if 0 < cmp ∧ twoUOf d.T u < twoUthresh then 0
    else (permProd d.T u : ℚ)).sum

/-- `UDist.PMF` from `udist.go`. `int(2*U)` truncates toward zero,
which on the non-negative branch is the floor; `int(math.Floor(U))` is
the floor. -/
def UDist.PMF (d : UDist) (U : ℚ) : ℚ :=
  if U < 0 ∨ 0.5 + ((d.N1 * d.N2 : ℕ) : ℚ) ≤ U then 0
  else if d.hasTies then
    d.permCount ⌊2 * U⌋ 0 / (choose (d.N1 + d.N2) d.N1 : ℚ)
  else
    d.p (⌊U⌋).toNat (⌊U⌋).toNat

/-- `UDist.CDF` from `udist.go`. In the untied branch the code sums
the low tail `pdfs[0..Ui]` left to right (flipping to the smaller tail
first via the symmetry around N1·N2/2); in exact arithmetic that sum
is the `Finset.range` sum below. -/
def UDist.CDF (d : UDist) (U : ℚ) : ℚ :=
  if U < 0 then 0
  else if ((d.N1 * d.N2 : ℕ) : ℚ) ≤ U then 1
  else if d.hasTies then
    d.permCount ⌊2 * U⌋ (-1) / (choose (d.N1 + d.N2) d.N1 : ℚ)
  else
    let Ui0 := (⌊U⌋).toNat
    let flip := (d.N1 * d.N2 + 1) / 2 ≤ Ui0
    let Ui := if flip then d.N1 * d.N2 - Ui0 - 1 else Ui0
    let s := ∑ u ∈ Finset.range (Ui + 1), d.p Ui u
    if flip then 1 - s else s

example : (UDist.mk 1 1 []).PMF 0 = 1/2 := by
  norm_num [UDist.PMF, UDist.hasTies, UDist.p, pLoop, pOuterStep, pInnerLoop, pInnerStep, pSetBase]

example : (UDist.mk 1 1 []).PMF 1 = 1/2 := by
  norm_num [UDist.PMF, UDist.hasTies, UDist.p, pLoop, pOuterStep, pInnerLoop, pInnerStep, pSetBase]

set_option maxHeartbeats 1000000 in
example : (UDist.mk 4 4 []).CDF 0 = 1/70 := by
  rw [UDist.CDF]
  norm_num [UDist.hasTies]
  norm_num [UDist.p, pLoop, pOuterStep, pInnerLoop, pInnerStep, pSetBase]

example : (UDist.mk 1 2 [1, 2]).PMF 0 = 1/3 := by
  norm_num [UDist.PMF, UDist.hasTies, UDist.permCount, boxList, sumint, twoUOf, twoUAux, permProd,
    choose, List.range_succ]

example : (UDist.mk 1 2 [1, 2]).PMF (3/2) = 2/3 := by
  norm_num [UDist.PMF, UDist.hasTies, UDist.permCount, boxList, sumint, twoUOf, twoUAux, permProd,
    choose, List.range_succ]

example : (UDist.mk 1 2 [1, 2]).CDF (1/2) = 1/3 := by
  norm_num [UDist.CDF, UDist.hasTies, UDist.permCount, boxList, sumint, twoUOf, twoUAux, permProd,
    choose, List.range_succ]

/-!
### Mathematical facts about the Mann-Whitney recurrence

`mwP n m` vanishes above n·m, and is symmetric in n and m.  The
symmetry proof goes through the generating polynomial
`Gb n m = C(n+m,n)·Σ_U p_{n,m}(U)·X^U` (a Gaussian binomial
coefficient), which satisfies `Gb n m * (D n * D m) = D (n+m)` for
`D k = Π_{i=1..k} (1 - X^i)` and is therefore symmetric.
-/

/-- p_{n,m}(U) = 0 for U > n·m. -/
theorem mwP_vanish (n : ℕ) : ∀ m : ℕ, ∀ U : ℤ, ((n * m : ℕ) : ℤ) < U → mwP n m U = 0 := by
  induction n with
  | zero =>
    intro m U h
    apply mwP_base_left
    simp at h
    omega
  | succ n ihn =>
    intro m
    induction m with
    | zero =>
      intro U h
      apply mwP_base_right
      simp at h
      omega
    | succ m ihm =>
      intro U h
      push_cast at h
      have hU : 0 ≤ U := by nlinarith [Int.natCast_nonneg n, Int.natCast_nonneg m]
      rw [mwP_rec n m U hU]
      have hA : ((n * (m+1) : ℕ) : ℤ) < U - ((m : ℤ) + 1) := by
        push_cast
        have e : ((n : ℤ) + 1) * ((m : ℤ) + 1) = (n : ℤ) * ((m : ℤ) + 1) + ((m : ℤ) + 1) := by
          ring
        linarith [h, e.le, e.ge]
      have hB : (((n+1) * m : ℕ) : ℤ) < U := by
        push_cast
        have e : ((n : ℤ) + 1) * ((m : ℤ) + 1) = ((n : ℤ) + 1) * (m : ℤ) + ((n : ℤ) + 1) := by
          ring
        have hn : (0 : ℤ) ≤ (n : ℤ) := Int.natCast_nonneg n
        linarith [h, e.le, e.ge]
      rw [ihn (m+1) (U - ((m : ℤ) + 1)) (by push_cast at hA ⊢; linarith)]
      rw [ihm U (by push_cast at hB ⊢; linarith)]
      ring

/-- The generating polynomial of C(n+m,n)·p_{n,m}: inner recursion. -/
noncomputable def GbRow (prev : ℕ → Polynomial ℚ) : ℕ → Polynomial ℚ
  | 0 => 1
  | m+1 => Polynomial.X^(m+1) * prev (m+1) + GbRow prev m

/-- The generating polynomial `Gb n m`, defined by the recurrence
`Gb (n+1) (m+1) = X^(m+1)·Gb n (m+1) + Gb (n+1) m` with
`Gb 0 m = Gb n 0 = 1`; this is the Gaussian binomial coefficient
`[n+m choose n]_X`. -/
noncomputable def Gb : ℕ → ℕ → Polynomial ℚ
  | 0 => fun _ => 1
  | n+1 => GbRow (Gb n)

theorem Gb_zero_left (m : ℕ) : Gb 0 m = 1 := rfl

theorem Gb_zero_right (n : ℕ) : Gb n 0 = 1 := by
  cases n with
  | zero => rfl
  | succ n => rfl

theorem Gb_succ (n m : ℕ) :
    Gb (n+1) (m+1) = Polynomial.X^(m+1) * Gb n (m+1) + Gb (n+1) m := rfl

/-- `D k = Π_{i=1..k} (1 - X^i)`. -/
noncomputable def Dpoly (k : ℕ) : Polynomial ℚ :=
  ∏ i ∈ Finset.range k, (1 - Polynomial.X^(i+1))

theorem Dpoly_zero : Dpoly 0 = 1 := by simp [Dpoly]

theorem Dpoly_succ (k : ℕ) : Dpoly (k+1) = Dpoly k * (1 - Polynomial.X^(k+1)) := by
  simp [Dpoly, Finset.prod_range_succ]

theorem Dpoly_ne_zero (k : ℕ) : Dpoly k ≠ 0 := by
  intro h
  have : Polynomial.eval 0 (Dpoly k) = 0 := by rw [h]; simp
  rw [Dpoly, Polynomial.eval_prod] at this
  simp [Polynomial.eval_pow] at this

/-- The product identity `Gb n m * (D n * D m) = D (n+m)`. -/
theorem Gb_mul_Dpoly (n : ℕ) : ∀ m : ℕ, Gb n m * (Dpoly n * Dpoly m) = Dpoly (n + m) := by
  induction n with
  | zero =>
    intro m
    rw [Gb_zero_left, Dpoly_zero, Nat.zero_add]
    ring
  | succ n ihn =>
    intro m
    induction m with
    | zero =>
      rw [Gb_zero_right, Dpoly_zero]
      ring
    | succ m ihm =>
      have h1 := ihn (m+1)
      have e1 : n + (m + 1) = n + m + 1 := by omega
      rw [e1, Dpoly_succ m] at h1
      have e2 : n + 1 + m = n + m + 1 := by omega
      rw [e2, Dpoly_succ n] at ihm
      have e3 : n + 1 + (m + 1) = n + m + 1 + 1 := by omega
      rw [Gb_succ, e3, Dpoly_succ (n+m+1), Dpoly_succ n, Dpoly_succ m]
      have expand : (Polynomial.X : Polynomial ℚ) ^ (n + m + 1 + 1) =
          (Polynomial.X : Polynomial ℚ) ^ (n + 1) * (Polynomial.X : Polynomial ℚ) ^ (m + 1) := by
        rw [← pow_add]
        congr 1
        omega
      rw [expand]
      linear_combination ((Polynomial.X : Polynomial ℚ)^(m+1)
          * (1 - (Polynomial.X : Polynomial ℚ)^(n+1))) * h1
        + (1 - (Polynomial.X : Polynomial ℚ)^(m+1)) * ihm

/-- The Gaussian binomial is symmetric: `Gb n m = Gb m n`. -/
theorem Gb_symm (n m : ℕ) : Gb n m = Gb m n := by
  have h1 := Gb_mul_Dpoly n m
  have h2 := Gb_mul_Dpoly m n
  rw [Nat.add_comm m n] at h2
  have h3 : Gb n m * (Dpoly n * Dpoly m) = Gb m n * (Dpoly n * Dpoly m) :=
    calc Gb n m * (Dpoly n * Dpoly m) = Dpoly (n + m) := h1
      _ = Gb m n * (Dpoly m * Dpoly n) := h2.symm
      _ = Gb m n * (Dpoly n * Dpoly m) := by ring
  exact mul_right_cancel₀ (mul_ne_zero (Dpoly_ne_zero n) (Dpoly_ne_zero m)) h3

/-- The recurrence with the division cleared. -/
theorem mwP_rec_mul (n m : ℕ) (U : ℤ) (hU : 0 ≤ U) :
    (((n : ℚ)+1) + ((m : ℚ)+1)) * mwP (n+1) (m+1) U
      = ((n : ℚ)+1) * mwP n (m+1) (U - ((m : ℤ)+1)) + ((m : ℚ)+1) * mwP (n+1) m U := by
  have hden : (((n : ℚ)+1) + ((m : ℚ)+1)) ≠ 0 := by positivity
  rw [mwP_rec n m U hU]
  rw [mul_div_cancel₀ _ hden]

/-- C(n+m,n)·p_{n,m}(u) is the coefficient of X^u in `Gb n m`. -/
theorem choose_mul_mwP (n : ℕ) :
    ∀ m u : ℕ, (choose (n+m) n : ℚ) * mwP n m (u : ℤ) = (Gb n m).coeff u := by
  induction n with
  | zero =>
    intro m u
    rw [Gb_zero_left]
    rcases Nat.eq_zero_or_pos u with hu | hu
    · subst hu
      simp [choose, mwP, Polynomial.coeff_one]
    · have h1 : ((u : ℤ) ≠ 0) := by omega
      have h2 : u ≠ 0 := by omega
      simp [choose, mwP, Polynomial.coeff_one, h1, h2]
  | succ n ihn =>
    intro m
    induction m with
    | zero =>
      intro u
      rw [Gb_zero_right]
      rcases Nat.eq_zero_or_pos u with hu | hu
      · subst hu
        simp [choose, mwP, mwPRow, Polynomial.coeff_one]
      · have h1 : ((u : ℤ) ≠ 0) := by omega
        have h2 : u ≠ 0 := by omega
        simp [choose, mwP, mwPRow, Polynomial.coeff_one, h1, h2]
    | succ m ihm =>
      intro u
      have key := mwP_rec_mul n m (u : ℤ) (Int.natCast_nonneg u)
      -- binomial coefficient identities, as ℚ equations
      have hA : (((n+m+2 : ℕ)) : ℚ) * (choose (n+m+1) n : ℚ)
          = (choose (n+m+2) (n+1) : ℚ) * ((n : ℚ)+1) := by
        have : (n+m+2) * Nat.choose (n+m+1) n = Nat.choose (n+m+2) (n+1) * (n+1) :=
          Nat.succ_mul_choose_eq (n+m+1) n
        exact_mod_cast this
      have hB : (((n+m+2 : ℕ)) : ℚ) * (choose (n+m+1) (n+1) : ℚ)
          = (choose (n+m+2) (n+1) : ℚ) * ((m : ℚ)+1) := by
        have e1 : Nat.choose (n+m+1) (n+1) = Nat.choose (n+m+1) m := by
          have := Nat.choose_symm (n := n+m+1) (k := n+1) (by omega)
          have e : n+m+1 - (n+1) = m := by omega
          rw [e] at this
          exact this.symm
        have e2 : (n+m+2) * Nat.choose (n+m+1) m = Nat.choose (n+m+2) (m+1) * (m+1) :=
          Nat.succ_mul_choose_eq (n+m+1) m
        have e3 : Nat.choose (n+m+2) (m+1) = Nat.choose (n+m+2) (n+1) := by
          have := Nat.choose_symm (n := n+m+2) (k := n+1) (by omega)
          have e : n+m+2 - (n+1) = m+1 := by omega
          rw [e] at this
          exact this
        have : (n+m+2) * Nat.choose (n+m+1) (n+1) = Nat.choose (n+m+2) (n+1) * (m+1) := by
          rw [e1, e2, e3]
        exact_mod_cast this
      -- the right-hand side coefficients
      rw [Gb_succ, Polynomial.coeff_add, mul_comm (Polynomial.X^(m+1)) (Gb n (m+1)),
        Polynomial.coeff_mul_X_pow']
      have hidx1 : n + (m+1) = n+m+1 := by omega
      have hidx2 : n + 1 + m = n+m+1 := by omega
      have hidx3 : n + 1 + (m + 1) = n+m+2 := by omega
      rw [hidx3]
      have hden : (0 : ℚ) < ((n : ℚ)+1) + ((m : ℚ)+1) := by positivity
      have hcast : (((n+m+2 : ℕ)) : ℚ) = ((n : ℚ)+1) + ((m : ℚ)+1) := by push_cast; ring
      by_cases hcase : m + 1 ≤ u
      · -- u ≥ m+1 : both terms of the recurrence contribute
        have ih1 := ihn (m+1) (u - (m+1))
        rw [hidx1] at ih1
        have hsub : (((u - (m+1) : ℕ)) : ℤ) = (u : ℤ) - ((m : ℤ)+1) := by
          push_cast [hcase]
          ring
        rw [hsub] at ih1
        have ih2 := ihm u
        rw [hidx2] at ih2
        simp only [hcase, if_pos]
        rw [← ih1, ← ih2]
        apply mul_left_cancel₀ (ne_of_gt hden)
        calc (((n : ℚ)+1) + ((m : ℚ)+1)) * ((choose (n+m+2) (n+1) : ℚ) * mwP (n+1) (m+1) (u : ℤ))
            = (choose (n+m+2) (n+1) : ℚ)
              * ((((n : ℚ)+1) + ((m : ℚ)+1)) * mwP (n+1) (m+1) (u : ℤ)) := by ring
          _ = (choose (n+m+2) (n+1) : ℚ)
              * (((n : ℚ)+1) * mwP n (m+1) ((u : ℤ) - ((m : ℤ)+1))
                + ((m : ℚ)+1) * mwP (n+1) m (u : ℤ)) := by rw [key]
          _ = (((n : ℚ)+1) + ((m : ℚ)+1))
              * ((choose (n+m+1) n : ℚ) * mwP n (m+1) ((u : ℤ) - ((m : ℤ)+1))
                + (choose (n+m+1) (n+1) : ℚ) * mwP (n+1) m (u : ℤ)) := by
                rw [← hcast]
                linear_combination mwP n (m+1) ((u : ℤ) - ((m : ℤ)+1)) * hA.symm
                  + mwP (n+1) m (u : ℤ) * hB.symm
      · -- u < m+1 : the first term of the recurrence vanishes
        have hneg : mwP n (m+1) ((u : ℤ) - ((m : ℤ)+1)) = 0 := by
          apply mwP_neg
          omega
        have ih2 := ihm u
        rw [hidx2] at ih2
        simp only [hcase, if_neg, not_false_iff]
        rw [← ih2]
        apply mul_left_cancel₀ (ne_of_gt hden)
        calc (((n : ℚ)+1) + ((m : ℚ)+1)) * ((choose (n+m+2) (n+1) : ℚ) * mwP (n+1) (m+1) (u : ℤ))
            = (choose (n+m+2) (n+1) : ℚ)
              * ((((n : ℚ)+1) + ((m : ℚ)+1)) * mwP (n+1) (m+1) (u : ℤ)) := by ring
          _ = (choose (n+m+2) (n+1) : ℚ)
              * (((n : ℚ)+1) * mwP n (m+1) ((u : ℤ) - ((m : ℤ)+1))
                + ((m : ℚ)+1) * mwP (n+1) m (u : ℤ)) := by rw [key]
          _ = (choose (n+m+2) (n+1) : ℚ) * (((m : ℚ)+1) * mwP (n+1) m (u : ℤ)) := by
                rw [hneg]; ring
          _ = (((n : ℚ)+1) + ((m : ℚ)+1))
              * (0 + (choose (n+m+1) (n+1) : ℚ) * mwP (n+1) m (u : ℤ)) := by
                rw [← hcast]
                linear_combination mwP (n+1) m (u : ℤ) * hB.symm

/-- p_{n,m} = p_{m,n}: the Mann-Whitney recurrence is symmetric in the
two sample sizes (the fact `udist.go` relies on to halve its table). -/
theorem mwP_symm (n m : ℕ) (U : ℤ) : mwP n m U = mwP m n U := by
  rcases lt_or_ge U 0 with hU | hU
  · rw [mwP_neg n m U hU, mwP_neg m n U hU]
  · obtain ⟨u, rfl⟩ : ∃ u : ℕ, U = (u : ℤ) := ⟨U.toNat, (Int.toNat_of_nonneg hU).symm⟩
    have h1 := choose_mul_mwP n m u
    have h2 := choose_mul_mwP m n u
    rw [Gb_symm n m] at h1
    have hch : Nat.choose (m+n) m = Nat.choose (n+m) n := by
      rw [Nat.add_comm m n]
      have := Nat.choose_symm (n := n+m) (k := n) (by omega)
      have e : n + m - n = m := by omega
      rw [e] at this
      exact this
    rw [show choose (m+n) m = choose (n+m) n from hch] at h2
    have hpos : (0 : ℚ) < (choose (n+m) n : ℚ) := by
      have := Nat.choose_pos (n := n+m) (k := n) (by omega)
      exact_mod_cast this
    have := h1.trans h2.symm
    exact mul_left_cancel₀ (ne_of_gt hpos) this

/-!
### Correctness of the dynamic programming in `UDist.p`

The table invariant: after the outer loop has processed rows 0..m,
row n of the table holds p_{n,m} for n ≤ m and is still zero above.
-/

/-- Invariant of the inner (n) loop at outer iteration m = mm+1:
after k iterations, rows 0..k hold p_{·,mm+1}, the rest still hold the
previous outer iteration's values. -/
theorem pInnerLoop_inv (N U : ℕ) (mm : ℕ) (prev : ℕ → ℕ → ℚ)
    (hprev : ∀ n, n ≤ N → ∀ u, u ≤ U → prev n u = if n ≤ mm then mwP n mm (u : ℤ) else 0) :
    ∀ k, k ≤ min N (mm+1) → ∀ n, n ≤ N → ∀ u, u ≤ U →
      pInnerLoop (mm+1) U (pSetBase prev) k n u
        = if n ≤ k then mwP n (mm+1) (u : ℤ)
          else (if n ≤ mm then mwP n mm (u : ℤ) else 0) := by
  intro k
  induction k with
  | zero =>
    intro _ n hn u hu
    simp only [pInnerLoop, pSetBase]
    rcases Nat.eq_zero_or_pos n with hn0 | hn0
    · subst hn0
      rcases Nat.eq_zero_or_pos u with hu0 | hu0
      · subst hu0
        simp [mwP]
      · have hune : ((u : ℤ)) ≠ 0 := by omega
        have h1 : ¬ (0 = 0 ∧ u = 0) := by omega
        rw [if_neg h1, hprev 0 hn u hu, if_pos (Nat.zero_le mm), if_pos (Nat.le_refl 0),
          mwP_base_left mm (u : ℤ) hune, mwP_base_left (mm+1) (u : ℤ) hune]
    · have h1 : ¬ (n = 0 ∧ u = 0) := by omega
      rw [if_neg h1, hprev n hn u hu, if_neg (show ¬ n ≤ 0 from by omega)]
  | succ k ih =>
    intro hk n hn u hu
    have hkmin : k ≤ min N (mm+1) := by omega
    have hkN : k + 1 ≤ N := by omega
    have hkm : k + 1 ≤ mm + 1 := by omega
    have hstate := ih hkmin
    simp only [pInnerLoop]
    by_cases hni : n = k + 1
    case neg =>
      -- rows other than k+1 are untouched by this iteration
      have hstep : pInnerStep (mm+1) U (pInnerLoop (mm+1) U (pSetBase prev) k) (k+1) n u
          = pInnerLoop (mm+1) U (pSetBase prev) k n u := by
        simp [pInnerStep, hni]
      rw [hstep, hstate n hn u hu]
      rcases le_or_lt n k with h | h
      · rw [if_pos h, if_pos (show n ≤ k + 1 from by omega)]
      · rw [if_neg (show ¬ n ≤ k from by omega), if_neg (show ¬ n ≤ k + 1 from by omega)]
    case pos =>
      subst hni
      rw [if_pos (Nat.le_refl (k+1))]
      by_cases hu2 : u ≤ min ((k+1) * (mm+1)) U
      case pos =>
        -- the value is overwritten with the recurrence value
        have hlp : (if (mm+1) ≤ u
              then pInnerLoop (mm+1) U (pSetBase prev) k ((k+1)-1) (u - (mm+1)) else 0)
            = mwP k (mm+1) ((u : ℤ) - ((mm : ℤ) + 1)) := by
          by_cases hum : (mm+1) ≤ u
          · rw [if_pos hum]
            have e : (k+1) - 1 = k := by omega
            rw [e, hstate k (by omega) (u - (mm+1)) (by omega), if_pos (Nat.le_refl k)]
            congr 1
            push_cast [hum]
            ring
          · rw [if_neg hum, mwP_neg]
            omega
        have hrp : (if k+1 ≤ (mm+1) - 1 then pInnerLoop (mm+1) U (pSetBase prev) k (k+1) u
              else pInnerLoop (mm+1) U (pSetBase prev) k ((mm+1)-1) u)
            = mwP (k+1) mm (u : ℤ) := by
          by_cases hkm2 : k+1 ≤ mm
          · rw [if_pos (by omega), hstate (k+1) hkN u hu, if_neg (by omega), if_pos hkm2]
          · have hmmk : mm = k := by omega
            subst hmmk
            have e : (mm+1) - 1 = mm := by omega
            rw [if_neg (by omega), e, hstate mm (by omega) u hu, if_pos (Nat.le_refl mm)]
            exact mwP_symm mm (mm+1) (u : ℤ)
        have hmain : pInnerStep (mm+1) U (pInnerLoop (mm+1) U (pSetBase prev) k) (k+1) (k+1) u
            = (((k+1 : ℕ) : ℚ) * mwP k (mm+1) ((u : ℤ) - ((mm : ℤ) + 1))
              + ((mm+1 : ℕ) : ℚ) * mwP (k+1) mm (u : ℤ)) / (((k+1 : ℕ) : ℚ) + ((mm+1 : ℕ) : ℚ)) := by
          rw [pInnerStep, if_pos rfl, if_pos hu2, hlp, hrp]
        rw [hmain, mwP_rec k mm (u : ℤ) (Int.natCast_nonneg u)]
        push_cast
        ring
      case neg =>
        -- above ulim the row keeps its old value, and both sides are 0
        have hub : (k+1) * (mm+1) < u := by omega
        have hstep : pInnerStep (mm+1) U (pInnerLoop (mm+1) U (pSetBase prev) k) (k+1) (k+1) u
            = pInnerLoop (mm+1) U (pSetBase prev) k (k+1) u := by
          rw [pInnerStep, if_pos rfl, if_neg hu2]
        rw [hstep, hstate (k+1) hkN u hu, if_neg (by omega)]
        rw [mwP_vanish (k+1) (mm+1) (u : ℤ) (by exact_mod_cast hub)]
        by_cases hkm2 : k+1 ≤ mm
        · rw [if_pos hkm2]
          have hle : (k+1) * mm ≤ (k+1) * (mm+1) := Nat.mul_le_mul_left _ (Nat.le_succ mm)
          rw [mwP_vanish (k+1) mm (u : ℤ) (by exact_mod_cast (by omega : (k+1) * mm < u))]
        · rw [if_neg hkm2]

/-- After outer iteration m, row n of the table holds p_{n,m} for
n ≤ m and is still zero above m. -/
theorem pLoop_inv (N U : ℕ) :
    ∀ m, ∀ n, n ≤ N → ∀ u, u ≤ U →
      pLoop N U m n u = if n ≤ m then mwP n m (u : ℤ) else 0 := by
  intro m
  induction m with
  | zero =>
    intro n hn u hu
    simp only [pLoop, pOuterStep, Nat.min_zero, pInnerLoop, pSetBase]
    rcases Nat.eq_zero_or_pos n with hn0 | hn0
    · subst hn0
      rcases Nat.eq_zero_or_pos u with hu0 | hu0
      · subst hu0
        simp [mwP]
      · have hune : ((u : ℤ)) ≠ 0 := by omega
        rw [if_neg (by omega), if_pos (Nat.le_refl 0), mwP_base_left 0 (u : ℤ) hune]
    · rw [if_neg (by omega), if_neg (by omega)]
  | succ m ihm =>
    intro n hn u hu
    simp only [pLoop, pOuterStep]
    rw [pInnerLoop_inv N U m (pLoop N U m) (fun n hn u hu => ihm n hn u hu)
      (min N (m+1)) (Nat.le_refl _) n hn u hu]
    rcases le_or_lt n (min N (m+1)) with hc | hc
    · rw [if_pos hc, if_pos (by omega)]
    · rw [if_neg (by omega), if_neg (by omega), if_neg (by omega)]

/-- The row returned by `UDist.p` is exactly p_{N1,N2}: the DP table
together with the min/max swap and the symmetry of p. -/
theorem UDist_p_eq (d : UDist) (U u : ℕ) (hu : u ≤ U) :
    d.p U u = mwP d.N1 d.N2 (u : ℤ) := by
  have hmin : min d.N1 d.N2 ≤ max d.N1 d.N2 := min_le_max
  have h := pLoop_inv (min d.N1 d.N2) U (max d.N1 d.N2) (min d.N1 d.N2) (Nat.le_refl _) u hu
  rw [UDist.p, h, if_pos hmin]
  rcases le_total d.N1 d.N2 with hc | hc
  · rw [min_eq_left hc, max_eq_right hc]
  · rw [min_eq_right hc, max_eq_left hc, mwP_symm]

/-!
### Claim C1 — the untied PMF equals the Mann-Whitney recurrence
-/

/-- C1: for all sample sizes N1, N2 ≥ 0 with no ties and every integer
U with 0 ≤ U ≤ N1·N2, `UDist{N1,N2}.PMF(U)` equals the value
p_{N1,N2}(U) of the Mann-Whitney recurrence `mwP`: the bottom-up DP
table computes exactly the recursively defined function. -/
theorem c1_pmf_matches_recurrence (N1 N2 : ℕ) (T : List ℕ)
    (hT : (UDist.mk N1 N2 T).hasTies = false) (U : ℕ) (hU : U ≤ N1 * N2) :
    (UDist.mk N1 N2 T).PMF (U : ℚ) = mwP N1 N2 (U : ℤ) := by
  rw [UDist.PMF]
  have hg1 : ¬ (((U : ℕ) : ℚ) < 0 ∨ 0.5 + (((UDist.mk N1 N2 T).N1 * (UDist.mk N1 N2 T).N2 : ℕ) : ℚ) ≤ ((U : ℕ) : ℚ)) := by
    push_neg
    constructor
    · positivity
    · have h1 : ((U : ℕ) : ℚ) ≤ ((N1 * N2 : ℕ) : ℚ) := by exact_mod_cast hU
      have h2 : ((UDist.mk N1 N2 T).N1 * (UDist.mk N1 N2 T).N2 : ℕ) = (N1 * N2 : ℕ) := rfl
      rw [h2]
      linarith
  rw [if_neg hg1, if_neg (by simp [hT])]
  have hfl : (⌊((U : ℕ) : ℚ)⌋).toNat = U := by simp
  rw [hfl]
  exact UDist_p_eq (UDist.mk N1 N2 T) U U (Nat.le_refl U)

/-- C1 witness: concrete instance N1 = 2, N2 = 3, U = 4. -/
theorem c1_witness :
    (UDist.mk 2 3 []).hasTies = false ∧ (4 : ℕ) ≤ 2 * 3 ∧
      (UDist.mk 2 3 []).PMF ((4 : ℕ) : ℚ) = mwP 2 3 ((4 : ℕ) : ℤ) :=
  ⟨rfl, by norm_num, c1_pmf_matches_recurrence 2 3 [] rfl 4 (by norm_num)⟩

/-!
### Claim C2 — the tied PMF/CDF are the split-vector sums

`splitVecs T` is the set of all ways of apportioning the tied
observations between the two samples; `permCount` is shown to compute
the filtered multiplicity sums over it.
-/

/-- The finite set of split vectors for tie vector T. -/
def splitVecs (T : List ℕ) : Finset (List ℕ) := (boxList T).toFinset

/-- Membership in `boxList T` is exactly pointwise domination
0 ≤ u_i ≤ T_i (with matching lengths). -/
theorem mem_boxList (T : List ℕ) : ∀ u : List ℕ, u ∈ boxList T ↔ List.Forall₂ (· ≤ ·) u T := by
  induction T with
  | nil =>
    intro u
    simp [boxList, List.forall₂_nil_right_iff]
  | cons t ts ih =>
    intro u
    simp only [boxList, List.mem_flatMap, List.mem_map, List.mem_range]
    constructor
    · rintro ⟨i, hi, w, hw, rfl⟩
      exact List.Forall₂.cons (by omega) ((ih w).mp hw)
    · intro h
      cases h with
      | cons ha hw => exact ⟨_, by omega, _, (ih _).mpr hw, rfl⟩

/-- The enumeration visits each split vector exactly once. -/
theorem boxList_nodup (T : List ℕ) : (boxList T).Nodup := by
  induction T with
  | nil => simp [boxList]
  | cons t ts ih =>
    rw [boxList, List.nodup_flatMap]
    constructor
    · intro i _
      exact ih.map List.cons_injective
    · refine (List.pairwise_lt_range (t+1)).imp ?_
      intro i j hij
      intro u hu1 hu2
      simp only [List.mem_map] at hu1 hu2
      obtain ⟨w1, _, rfl⟩ := hu1
      obtain ⟨w2, _, he⟩ := hu2
      injection he with h1 _
      omega

/-- A split vector is a member of `splitVecs` iff it is pointwise
dominated by T. -/
theorem mem_splitVecs (T u : List ℕ) : u ∈ splitVecs T ↔ List.Forall₂ (· ≤ ·) u T := by
  rw [splitVecs, List.mem_toFinset, mem_boxList]

theorem forall₂_sum_le (u T : List ℕ) (h : List.Forall₂ (· ≤ ·) u T) : u.sum ≤ T.sum := by
  induction h with
  | nil => simp
  | cons hab _ ih => simp only [List.sum_cons]; omega

/-- The running-sum computation of 2U is bounded by
2·(Σu)·(vsum + Σ(T-u)). -/
theorem twoUAux_bound (u T : List ℕ) (h : List.Forall₂ (· ≤ ·) u T) :
    ∀ vsum : ℤ, 0 ≤ vsum →
      twoUAux (u.zip T) vsum ≤ 2 * (u.sum : ℤ) * (vsum + ((T.sum : ℤ) - (u.sum : ℤ))) := by
  induction h with
  | nil =>
    intro vsum hv
    simp [twoUAux]
  | @cons a b l1 l2 hab hrest ih =>
    intro vsum hv
    have hS : (l1.sum : ℤ) ≤ (l2.sum : ℤ) := by
      exact_mod_cast forall₂_sum_le l1 l2 hrest
    have ihv := ih (vsum + ((b : ℤ) - (a : ℤ))) (by omega)
    simp only [List.zip_cons_cons, twoUAux, List.sum_cons, List.zip] at ihv ⊢
    push_cast at ihv hS ⊢
    nlinarith [ihv, hS, (by exact_mod_cast hab : (a : ℤ) ≤ (b : ℤ)),
      Int.natCast_nonneg a, Int.natCast_nonneg l1.sum, hv]

/-- The 2U statistic of any admissible split vector with Σu = N1 and
ΣT = N1+N2 is at most 2·N1·N2. -/
theorem twoUOf_le (T u : List ℕ) (h : List.Forall₂ (· ≤ ·) u T)
    (N1 N2 : ℕ) (hu : u.sum = N1) (hT : T.sum = N1 + N2) :
    twoUOf T u ≤ 2 * (N1 : ℤ) * N2 := by
  have := twoUAux_bound u T h 0 (le_refl 0)
  rw [twoUOf]
  rw [hu, hT] at this
  push_cast at this ⊢
  linarith

theorem list_sum_mul_left (c : ℚ) (l : List (List ℕ)) (f : List ℕ → ℚ) :
    (l.map (fun w => c * f w)).sum = c * (l.map f).sum := by
  induction l with
  | nil => simp
  | cons a l ih => simp [ih]; ring

theorem range_map_sum (n : ℕ) (f : ℕ → ℚ) :
    ((List.range n).map f).sum = ∑ i ∈ Finset.range n, f i := by
  induction n with
  | zero => simp
  | succ n ih => simp [List.range_succ, Finset.sum_range_succ, ih]

theorem flatMap_map_sum (l : List ℕ) (f : ℕ → List (List ℕ)) (g : List ℕ → ℚ) :
    ((l.flatMap f).map g).sum = (l.map (fun x => ((f x).map g).sum)).sum := by
  induction l with
  | nil => simp
  | cons a l ih => simp [List.flatMap_cons, ih]

/-- Generalized Vandermonde: the total multiplicity of the split
vectors with Σu = j is C(ΣT, j). -/
theorem boxList_permProd_sum (T : List ℕ) :
    ∀ j : ℕ, ((boxList T).map (fun u => if sumint u = j then (permProd T u : ℚ) else 0)).sum
      = (choose T.sum j : ℚ) := by
  induction T with
  | nil =>
    intro j
    rcases Nat.eq_zero_or_pos j with hj | hj
    · subst hj
      simp [boxList, sumint, permProd, choose]
    · have h1 : ¬ ((0 : ℕ) = j) := by omega
      have h2 : Nat.choose 0 j = 0 := Nat.choose_eq_zero_of_lt hj
      simp [boxList, sumint, permProd, choose, h1, h2]
  | cons t ts ih =>
    intro j
    rw [show boxList (t :: ts)
        = (List.range (t+1)).flatMap (fun i => (boxList ts).map (i :: ·)) from rfl]
    rw [flatMap_map_sum]
    have hinner : ∀ i, (((boxList ts).map (i :: ·)).map
          (fun u => if sumint u = j then (permProd (t :: ts) u : ℚ) else 0)).sum
        = if i ≤ j then (choose t i : ℚ) * (choose ts.sum (j - i) : ℚ) else 0 := by
      intro i
      rw [List.map_map]
      have hcomp : ((fun u => if sumint u = j then (permProd (t :: ts) u : ℚ) else 0) ∘ (i :: ·))
          = fun w => if i + sumint w = j then ((choose t i * permProd ts w : ℕ) : ℚ) else 0 := by
        funext w
        simp [sumint, permProd, Function.comp]
      rw [hcomp]
      by_cases hij : i ≤ j
      · rw [if_pos hij]
        have hfun : (fun w => if i + sumint w = j then ((choose t i * permProd ts w : ℕ) : ℚ) else 0)
            = fun w => (choose t i : ℚ) * (if sumint w = j - i then (permProd ts w : ℚ) else 0) := by
          funext w
          by_cases hw : sumint w = j - i
          · rw [if_pos (by omega), if_pos hw]
            push_cast
            ring
          · rw [if_neg (by omega), if_neg hw]
            ring
        rw [hfun, list_sum_mul_left, ih (j - i)]
      · rw [if_neg hij]
        apply List.sum_eq_zero
        intro x hx
        simp only [List.mem_map] at hx
        obtain ⟨w, _, rfl⟩ := hx
        rw [if_neg (by omega)]
    have hmap : (List.range (t+1)).map (fun i => (((boxList ts).map (i :: ·)).map
          (fun u => if sumint u = j then (permProd (t :: ts) u : ℚ) else 0)).sum)
        = (List.range (t+1)).map (fun i => if i ≤ j
            then (choose t i : ℚ) * (choose ts.sum (j - i) : ℚ) else 0) := by
      apply List.map_congr_left
      intro i _
      exact hinner i
    rw [hmap, range_map_sum]
    -- now a pure Vandermonde computation over `Finset.range`
    have hvdm : (Nat.choose (t + ts.sum) j : ℚ)
        = ∑ i ∈ Finset.range (j+1), (Nat.choose t i : ℚ) * (Nat.choose ts.sum (j - i) : ℚ) := by
      have := Nat.add_choose_eq t ts.sum j
      rw [Finset.Nat.sum_antidiagonal_eq_sum_range_succ
        (fun a b => Nat.choose t a * Nat.choose ts.sum b) j] at this
      exact_mod_cast this
    have hbig : ∀ (R : Finset ℕ), Finset.range (t+1) ⊆ R →
        (∑ i ∈ Finset.range (t+1),
          (if i ≤ j then (choose t i : ℚ) * (choose ts.sum (j - i) : ℚ) else 0))
        = ∑ i ∈ R, (if i ≤ j then (choose t i : ℚ) * (choose ts.sum (j - i) : ℚ) else 0) := by
      intro R hR
      apply Finset.sum_subset hR
      intro x _ hx
      have hxt : t < x := by
        simp only [Finset.mem_range, not_lt] at hx
        omega
      rw [choose, Nat.choose_eq_zero_of_lt hxt]
      simp
    have hbig2 : (∑ i ∈ Finset.range (j+1), (Nat.choose t i : ℚ) * (Nat.choose ts.sum (j - i) : ℚ))
        = ∑ i ∈ Finset.range (max t j + 1),
            (if i ≤ j then (choose t i : ℚ) * (choose ts.sum (j - i) : ℚ) else 0) := by
      rw [← Finset.sum_subset (Finset.range_subset.mpr (by omega : j+1 ≤ max t j + 1))]
      · apply Finset.sum_congr rfl
        intro i hi
        simp only [Finset.mem_range] at hi
        rw [if_pos (by omega)]
        rfl
      · intro x hx hnx
        simp only [Finset.mem_range, not_lt] at hnx
        rw [if_neg (by omega)]
    rw [hbig (Finset.range (max t j + 1)) (Finset.range_subset.mpr (by omega))]
    rw [show (t :: ts).sum = t + ts.sum from rfl]
    rw [show (choose (t + ts.sum) j : ℚ) = (Nat.choose (t + ts.sum) j : ℚ) from rfl]
    rw [hvdm, hbig2]

/-- `permCount` with cmp = 0 is the multiplicity sum over split
vectors with 2U equal to the threshold. -/
theorem permCount_eq_sum_eq (d : UDist) (k : ℤ) :
    d.permCount k 0
      = ∑ u ∈ (splitVecs d.T).filter (fun u => sumint u = d.N1 ∧ twoUOf d.T u = k),
          (permProd d.T u : ℚ) := by
  rw [UDist.permCount, splitVecs, ← List.sum_toFinset _ (boxList_nodup d.T), Finset.sum_filter]
  apply Finset.sum_congr rfl
  intro u _
  by_cases h1 : sumint u = d.N1
  · by_cases h2 : twoUOf d.T u = k
    · simp [h1, h2]
    · simp [h1, h2]
  · simp [h1]

/-- `permCount` with cmp = -1 is the multiplicity sum over split
vectors with 2U at most the threshold. -/
theorem permCount_eq_sum_le (d : UDist) (k : ℤ) :
    d.permCount k (-1)
      = ∑ u ∈ (splitVecs d.T).filter (fun u => sumint u = d.N1 ∧ twoUOf d.T u ≤ k),
          (permProd d.T u : ℚ) := by
  rw [UDist.permCount, splitVecs, ← List.sum_toFinset _ (boxList_nodup d.T), Finset.sum_filter]
  apply Finset.sum_congr rfl
  intro u _
  by_cases h1 : sumint u = d.N1
  · by_cases h2 : twoUOf d.T u ≤ k
    · have h3 : ¬ (k < twoUOf d.T u) := by omega
      simp [h1, h2, h3]
    · have h3 : k < twoUOf d.T u := by omega
      simp [h1, h2, h3]
  · simp [h1]

/-- C2: for a tied UDist (T has an entry > 1, ΣT = N1+N2) and every
grid point U = k/2 with 0 ≤ U ≤ N1·N2, PMF(U) equals the sum over
split vectors u (0 ≤ u_i ≤ T_i, Σu = N1) with 2U(u) = 2U of the
multiplicity Π C(T_i,u_i), divided by C(N1+N2,N1); CDF(U) the same
with 2U(u) ≤ 2U. -/
theorem c2_tied_pmf_cdf (N1 N2 : ℕ) (T : List ℕ)
    (hT : (UDist.mk N1 N2 T).hasTies = true) (hsum : T.sum = N1 + N2)
    (k : ℕ) (hk : k ≤ 2 * (N1 * N2)) :
    (UDist.mk N1 N2 T).PMF ((k : ℚ) / 2)
        = (∑ u ∈ (splitVecs T).filter (fun u => sumint u = N1 ∧ twoUOf T u = (k : ℤ)),
            (permProd T u : ℚ)) / (choose (N1 + N2) N1 : ℚ)
      ∧ (UDist.mk N1 N2 T).CDF ((k : ℚ) / 2)
        = (∑ u ∈ (splitVecs T).filter (fun u => sumint u = N1 ∧ twoUOf T u ≤ (k : ℤ)),
            (permProd T u : ℚ)) / (choose (N1 + N2) N1 : ℚ) := by
  have hk2 : ((k : ℚ)) / 2 ≤ ((N1 * N2 : ℕ) : ℚ) := by
    have h0 : (k : ℚ) ≤ ((2 * (N1 * N2) : ℕ) : ℚ) := by exact_mod_cast hk
    push_cast at h0 ⊢
    linarith
  have hpos : (0 : ℚ) ≤ (k : ℚ) / 2 := by positivity
  have hfl : (⌊2 * ((k : ℚ) / 2)⌋ : ℤ) = (k : ℤ) := by
    rw [show (2 : ℚ) * ((k : ℚ)/2) = ((k : ℕ) : ℚ) from by ring]
    exact Int.floor_natCast k
  constructor
  · rw [UDist.PMF]
    rw [if_neg (by
      push_neg
      refine ⟨hpos, ?_⟩
      calc ((k : ℚ)) / 2 ≤ ((N1 * N2 : ℕ) : ℚ) := hk2
        _ < 0.5 + ((N1 * N2 : ℕ) : ℚ) := by norm_num)]
    rw [if_pos hT, hfl, permCount_eq_sum_eq]
  · rcases lt_or_ge ((k : ℚ)/2) ((N1 * N2 : ℕ) : ℚ) with hlt | hge
    · rw [UDist.CDF, if_neg (not_lt.mpr hpos), if_neg (not_le.mpr hlt), if_pos hT, hfl,
        permCount_eq_sum_le]
    · have hkeq : k = 2 * (N1 * N2) := by
        have h0 : ((N1 * N2 : ℕ) : ℚ) * 2 ≤ (k : ℚ) := by linarith
        have h1 : ((2 * (N1 * N2) : ℕ) : ℚ) ≤ ((k : ℕ) : ℚ) := by push_cast at h0 ⊢; linarith
        have h2 : 2 * (N1 * N2) ≤ k := by exact_mod_cast h1
        omega
      rw [UDist.CDF, if_neg (not_lt.mpr hpos), if_pos hge]
      have hfilter : (splitVecs T).filter (fun u => sumint u = N1 ∧ twoUOf T u ≤ (k : ℤ))
          = (splitVecs T).filter (fun u => sumint u = N1) := by
        apply Finset.filter_congr
        intro u hu
        constructor
        · exact fun h => h.1
        · intro h1
          refine ⟨h1, ?_⟩
          have := twoUOf_le T u ((mem_splitVecs T u).mp hu) N1 N2 h1 hsum
          have hcast : ((k : ℕ) : ℤ) = 2 * (N1 : ℤ) * N2 := by
            rw [hkeq]; push_cast; ring
          rw [hcast]
          exact this
      rw [hfilter]
      have hsum2 : (∑ u ∈ (splitVecs T).filter (fun u => sumint u = N1), (permProd T u : ℚ))
          = (choose T.sum N1 : ℚ) := by
        rw [Finset.sum_filter, splitVecs, List.sum_toFinset _ (boxList_nodup T),
          boxList_permProd_sum T N1]
      rw [hsum2, hsum]
      have hne : (choose (N1 + N2) N1 : ℚ) ≠ 0 := by
        have h1 : 0 < Nat.choose (N1 + N2) N1 := Nat.choose_pos (by omega)
        rw [choose]
        exact Nat.cast_ne_zero.mpr (Nat.pos_iff_ne_zero.mp h1)
      rw [div_self hne]

/-- C2 witness: concrete instance N1 = 1, N2 = 2, T = [1,2], k = 0. -/
theorem c2_witness :
    (UDist.mk 1 2 [1, 2]).PMF (((0 : ℕ) : ℚ) / 2)
        = (∑ u ∈ (splitVecs [1, 2]).filter
              (fun u => sumint u = 1 ∧ twoUOf [1, 2] u = ((0 : ℕ) : ℤ)),
            (permProd [1, 2] u : ℚ)) / (choose (1 + 2) 1 : ℚ)
      ∧ (UDist.mk 1 2 [1, 2]).CDF (((0 : ℕ) : ℚ) / 2)
        = (∑ u ∈ (splitVecs [1, 2]).filter
              (fun u => sumint u = 1 ∧ twoUOf [1, 2] u ≤ ((0 : ℕ) : ℤ)),
            (permProd [1, 2] u : ℚ)) / (choose (1 + 2) 1 : ℚ) :=
  c2_tied_pmf_cdf 1 2 [1, 2] rfl rfl 0 (by norm_num)

/-!
### `MannWhitneyUTest` (utest.go)

The test pipeline: sort private copies, `labeledMerge`, the ranking
loop producing (R1, T, hasTies), U1/U2, then the exact or the
normal-approximation branch.  `sort.Float64s` is modelled by insertion
sort (sorting a list of rationals has a unique result, so any correct
sort agrees); the normal CDF `StdNormal.CDF` and `math.Sqrt` are
external collaborators passed in as function parameters.
-/

/-- The error values of the stats package (`ErrSampleSize`,
`ErrSamplesEqual`). -/
inductive StatsError where
  | sampleSize
  | samplesEqual
deriving DecidableEq, Repr

/-- `labeledMerge` from `utest.go`: merge two sorted lists, labelling
each element 1 or 2 by its sample of origin (ties taken from x2
first, since the Go code tests `x1[i] < x2[j]`). -/
def labeledMerge : List ℚ → List ℚ → List (ℚ × ℕ)
  | [], ys => ys.map (fun y => (y, 2))
  | x :: xs, [] => (x :: xs).map (fun x => (x, 1))
  | x :: xs, y :: ys =>
    if x < y then (x, 1) :: labeledMerge xs (y :: ys)
    else (y, 2) :: labeledMerge (x :: xs) ys

/-- The ranking loop of `MannWhitneyUTest`: starting at 0-based
position `pos`, consume each maximal run of equal values, assigning
the run the average rank `(i + rank1)/2` (with `rank1 = pos+1` and `i`
the position after the run), and return (R1, T, hasTies). -/
def rankLoop : List (ℚ × ℕ) → ℕ → ℚ × List ℕ × Bool
  | [], _ => (0, [], false)
  | (v, l) :: rest, pos =>
    let run := ((v, l) :: rest).takeWhile (fun p => p.1 = v)
    let rest2 := ((v, l) :: rest).dropWhile (fun p => p.1 = v)
    let len := run.length
    let nx1 := (run.filter (fun p => p.2 = 1)).length
    let prev := rankLoop rest2 (pos + len)
    (prev.1 + (if nx1 ≠ 0 then (((pos + len : ℕ) : ℚ) + ((pos + 1 : ℕ) : ℚ)) / 2 * (nx1 : ℚ) else 0),
      len :: prev.2.1,
      (decide (1 < len) || prev.2.2))
termination_by xs _ => xs.length
decreasing_by
  simp only [List.dropWhile_cons]
  rw [if_pos (by simp)]
  have := (List.dropWhile_sublist (l := rest) (fun p : ℚ × ℕ => decide (p.1 = v))).length_le
  simp only [List.length_cons]
  omega

/-- `tieCorrection` from `utest.go`: Σ_j (t_j³ − t_j) over the runs of
equal values. -/
def tieCorrectionLoop : List ℚ → ℤ
  | [] => 0
  | v :: rest =>
    let run := (v :: rest).takeWhile (fun x => x = v)
    let rest2 := (v :: rest).dropWhile (fun x => x = v)
    ((run.length : ℤ)^3 - run.length) + tieCorrectionLoop rest2
termination_by xs => xs.length
decreasing_by
  simp only [List.dropWhile_cons]
  rw [if_pos (by simp)]
  have := (List.dropWhile_sublist (l := rest) (fun x : ℚ => decide (x = v))).length_le
  simp only [List.length_cons]
  omega

/-- `tieCorrection` returns the factor as a float. -/
def tieCorrection (xs : List ℚ) : ℚ := ((tieCorrectionLoop xs : ℤ) : ℚ)

/-- `MannWhitneyUTestResult` from `utest.go`. -/
structure MannWhitneyUTestResult where
  N1 : ℕ
  N2 : ℕ
  U : ℚ
  P : ℚ
deriving DecidableEq, Repr

/-- Default of the package-level variable `MannWhitneyExactLimit`. -/
def MannWhitneyExactLimit : ℕ := 50

/-- Default of the package-level variable `MannWhitneyTiesExactLimit`. -/
def MannWhitneyTiesExactLimit : ℕ := 9

/-- The merged, labelled sequence of the two (sorted copies of the)
samples. -/
def mwMerged (x1 x2 : List ℚ) : List (ℚ × ℕ) :=
  labeledMerge (List.insertionSort (· ≤ ·) x1) (List.insertionSort (· ≤ ·) x2)

/-- The (R1, T, hasTies) triple of the ranking loop. -/
def mwRank (x1 x2 : List ℚ) : ℚ × List ℕ × Bool := rankLoop (mwMerged x1 x2) 0

/-- The rank sum R1 of sample 1. -/
def mwR1 (x1 x2 : List ℚ) : ℚ := (mwRank x1 x2).1

/-- The tie vector T. -/
def mwT (x1 x2 : List ℚ) : List ℕ := (mwRank x1 x2).2.1

/-- Whether the merged sequence has any tie. -/
def mwHasTies (x1 x2 : List ℚ) : Bool := (mwRank x1 x2).2.2

/-- U1 = R1 − N1(N1+1)/2. -/
def mwU1 (x1 x2 : List ℚ) : ℚ :=
  mwR1 x1 x2 - ((x1.length * (x1.length + 1) : ℕ) : ℚ) / 2

/-- U2 = N1·N2 − U1. -/
def mwU2 (x1 x2 : List ℚ) : ℚ := ((x1.length * x2.length : ℕ) : ℚ) - mwU1 x1 x2

/-- The reported U: the smaller of U1 and U2. -/
def mwU (x1 x2 : List ℚ) : ℚ := min (mwU1 x1 x2) (mwU2 x1 x2)

/-- `MannWhitneyUTest` from `utest.go`, with `sqrt` (for `math.Sqrt`)
and `Φ` (for `StdNormal.CDF`) supplied by the caller. -/
def MannWhitneyUTest (sqrt Φ : ℚ → ℚ) (x1 x2 : List ℚ) :
    Except StatsError MannWhitneyUTestResult :=
  if x1.length = 0 ∨ x2.length = 0 then .error .sampleSize
  else if (mwHasTies x1 x2 = false ∧ x1.length ≤ MannWhitneyExactLimit
        ∧ x2.length ≤ MannWhitneyExactLimit)
      ∨ (mwHasTies x1 x2 = true ∧ x1.length ≤ MannWhitneyTiesExactLimit
        ∧ x2.length ≤ MannWhitneyTiesExactLimit) then
    if (mwT x1 x2).length = 1 then .error .samplesEqual
    else if mwU1 x1 x2 = mwU2 x1 x2 then .ok ⟨x1.length, x2.length, mwU x1 x2, 1⟩
    else .ok ⟨x1.length, x2.length, mwU x1 x2,
        (UDist.mk x1.length x2.length (mwT x1 x2)).CDF (mwU x1 x2) * 2⟩
  else
    let t := tieCorrection ((mwMerged x1 x2).map (·.1))
    let N : ℚ := ((x1.length + x2.length : ℕ) : ℚ)
    let μU : ℚ := ((x1.length * x2.length : ℕ) : ℚ) / 2
    let σU : ℚ := sqrt (((x1.length * x2.length : ℕ) : ℚ) * ((N + 1) - t / (N * (N - 1))) / 12)
    let numer := mwU x1 x2 - μU
    let numer2 := numer - sign numer * 0.5
    if σU = 0 then .error .samplesEqual
    else .ok ⟨x1.length, x2.length, mwU x1 x2,
        2 * min (Φ (numer2 / σU)) (1 - Φ (numer2 / σU))⟩

/-!
### Claim C3 — the exact path returns P = 2·CDF(U), or 1 at the midpoint
-/

/-- C3: whenever `MannWhitneyUTest` takes the exact-distribution path
(no ties and both sizes ≤ 50, or ties and both sizes ≤ 9) and does not
fail (T has more than one entry), the returned P is exactly
2·UDist.CDF(U) when U1 ≠ U2 and exactly 1 when U1 = U2. -/
theorem c3_exact_path (sqrt Φ : ℚ → ℚ) (x1 x2 : List ℚ)
    (h1 : x1.length ≠ 0) (h2 : x2.length ≠ 0)
    (hpath : (mwHasTies x1 x2 = false ∧ x1.length ≤ MannWhitneyExactLimit
        ∧ x2.length ≤ MannWhitneyExactLimit)
      ∨ (mwHasTies x1 x2 = true ∧ x1.length ≤ MannWhitneyTiesExactLimit
        ∧ x2.length ≤ MannWhitneyTiesExactLimit))
    (hT : (mwT x1 x2).length ≠ 1) :
    MannWhitneyUTest sqrt Φ x1 x2
      = .ok ⟨x1.length, x2.length, mwU x1 x2,
          if mwU1 x1 x2 = mwU2 x1 x2 then 1
          else (UDist.mk x1.length x2.length (mwT x1 x2)).CDF (mwU x1 x2) * 2⟩ := by
  rw [MannWhitneyUTest]
  rw [if_neg (by omega), if_pos hpath, if_neg hT]
  by_cases he : mwU1 x1 x2 = mwU2 x1 x2
  · rw [if_pos he, if_pos he]
  · rw [if_neg he, if_neg he]

/-- C3 witness: the disjoint samples {2,1,3,5} and {12,11,13,15} from
the repository's tests (U = 0, P = 2·CDF(0) = 1/35). -/
theorem c3_witness :
    MannWhitneyUTest id id [2, 1, 3, 5] [12, 11, 13, 15]
      = .ok ⟨4, 4, mwU [2, 1, 3, 5] [12, 11, 13, 15],
          if mwU1 [2, 1, 3, 5] [12, 11, 13, 15] = mwU2 [2, 1, 3, 5] [12, 11, 13, 15] then 1
          else (UDist.mk 4 4 (mwT [2, 1, 3, 5] [12, 11, 13, 15])).CDF
            (mwU [2, 1, 3, 5] [12, 11, 13, 15]) * 2⟩ :=
  c3_exact_path id id [2, 1, 3, 5] [12, 11, 13, 15] (by norm_num) (by norm_num)
    (Or.inl ⟨by norm_num [mwHasTies, mwRank, mwMerged, labeledMerge, rankLoop.eq_def,
        List.insertionSort, List.orderedInsert, List.takeWhile, List.dropWhile],
      by norm_num [MannWhitneyExactLimit], by norm_num [MannWhitneyExactLimit]⟩)
    (by norm_num [mwT, mwRank, mwMerged, labeledMerge, rankLoop.eq_def,
        List.insertionSort, List.orderedInsert, List.takeWhile, List.dropWhile])

/-!
### Claim C5 — all-equal samples fail with ErrSamplesEqual
-/

/-- Merging two all-equal samples: x2's copies come first (the merge
takes from x2 on ties), then x1's. -/
theorem labeledMerge_const (c : ℚ) (n1 n2 : ℕ) :
    labeledMerge (List.replicate n1 c) (List.replicate n2 c)
      = List.replicate n2 (c, 2) ++ List.replicate n1 (c, 1) := by
  induction n2 with
  | zero =>
    cases n1 with
    | zero => simp [labeledMerge]
    | succ k => simp [List.replicate_succ, labeledMerge]
  | succ n2 ih =>
    cases n1 with
    | zero => simp [labeledMerge]
    | succ k =>
      have hstep : labeledMerge (List.replicate (k+1) c) (List.replicate (n2+1) c)
          = (c, 2) :: labeledMerge (List.replicate (k+1) c) (List.replicate n2 c) := by
        rw [List.replicate_succ (n := n2), List.replicate_succ (n := k)]
        rw [labeledMerge]
        rw [if_neg (lt_irrefl c)]
      rw [hstep, ih, List.replicate_succ (n := n2)]
      rfl

/-- The ranking loop on a constant-value sequence: a single run. -/
theorem rankLoop_const (c : ℚ) (xs : List (ℚ × ℕ)) (hne : xs ≠ [])
    (hall : ∀ p ∈ xs, p.1 = c) (pos : ℕ) :
    rankLoop xs pos
      = ((if ((xs.filter (fun p => p.2 = 1)).length ≠ 0)
            then (((pos + xs.length : ℕ) : ℚ) + ((pos + 1 : ℕ) : ℚ)) / 2
              * (((xs.filter (fun p => p.2 = 1)).length : ℕ) : ℚ) else 0),
          [xs.length], decide (1 < xs.length)) := by
  obtain ⟨⟨v, l⟩, rest, rfl⟩ : ∃ p rest, xs = p :: rest := by
    cases xs with
    | nil => exact absurd rfl hne
    | cons p rest => exact ⟨p, rest, rfl⟩
  have hv : v = c := hall (v, l) (by simp)
  have htake : ((v, l) :: rest).takeWhile (fun p => decide (p.1 = v)) = (v, l) :: rest := by
    apply List.takeWhile_eq_self_iff.mpr
    intro p hp
    simp only [decide_eq_true_eq]
    rw [hall p hp, hv]
  have hdrop : ((v, l) :: rest).dropWhile (fun p => decide (p.1 = v)) = [] := by
    apply List.dropWhile_eq_nil_iff.mpr
    intro p hp
    simp only [decide_eq_true_eq]
    rw [hall p hp, hv]
  rw [rankLoop]
  simp only [htake, hdrop]
  rw [show rankLoop [] (pos + ((v, l) :: rest).length) = (0, [], false) from by rw [rankLoop]]
  simp

/-- The tie-correction loop on a constant-value sequence. -/
theorem tieCorrectionLoop_const (c : ℚ) (xs : List ℚ) (hne : xs ≠ [])
    (hall : ∀ x ∈ xs, x = c) :
    tieCorrectionLoop xs = (xs.length : ℤ)^3 - xs.length := by
  obtain ⟨v, rest, rfl⟩ : ∃ v rest, xs = v :: rest := by
    cases xs with
    | nil => exact absurd rfl hne
    | cons v rest => exact ⟨v, rest, rfl⟩
  have hv : v = c := hall v (by simp)
  have htake : (v :: rest).takeWhile (fun x => decide (x = v)) = v :: rest := by
    apply List.takeWhile_eq_self_iff.mpr
    intro x hx
    simp only [decide_eq_true_eq]
    rw [hall x hx, hv]
  have hdrop : (v :: rest).dropWhile (fun x => decide (x = v)) = [] := by
    apply List.dropWhile_eq_nil_iff.mpr
    intro x hx
    simp only [decide_eq_true_eq]
    rw [hall x hx, hv]
  rw [tieCorrectionLoop]
  simp only [htake, hdrop]
  rw [show tieCorrectionLoop [] = 0 from by rw [tieCorrectionLoop]]
  ring

/-- C5: when every value in both (non-empty) samples equals the same
constant, `MannWhitneyUTest` fails with the samples-equal error: the
exact path detects it as len(T) = 1, the normal-approximation path as
σ_U = 0 (= sqrt 0, because the tie correction cancels the variance). -/
theorem c5_all_equal (sqrt Φ : ℚ → ℚ) (hsqrt : sqrt 0 = 0) (x1 x2 : List ℚ) (c : ℚ)
    (h1 : x1.length ≠ 0) (h2 : x2.length ≠ 0)
    (ha : ∀ v ∈ x1, v = c) (hb : ∀ v ∈ x2, v = c) :
    MannWhitneyUTest sqrt Φ x1 x2 = .error .samplesEqual := by
  have hs1 : List.insertionSort (· ≤ ·) x1 = List.replicate x1.length c := by
    apply List.eq_replicate_iff.mpr
    refine ⟨(List.perm_insertionSort _ _).length_eq, ?_⟩
    intro b hbmem
    exact ha b ((List.perm_insertionSort _ x1).mem_iff.mp hbmem)
  have hs2 : List.insertionSort (· ≤ ·) x2 = List.replicate x2.length c := by
    apply List.eq_replicate_iff.mpr
    refine ⟨(List.perm_insertionSort _ _).length_eq, ?_⟩
    intro b hbmem
    exact hb b ((List.perm_insertionSort _ x2).mem_iff.mp hbmem)
  have hmerged : mwMerged x1 x2
      = List.replicate x2.length (c, 2) ++ List.replicate x1.length (c, 1) := by
    rw [mwMerged, hs1, hs2, labeledMerge_const]
  have hmne : mwMerged x1 x2 ≠ [] := by
    rw [hmerged]
    intro h
    have hlen := congrArg List.length h
    simp only [List.length_append, List.length_replicate, List.length_nil] at hlen
    omega
  have hmall : ∀ p ∈ mwMerged x1 x2, p.1 = c := by
    rw [hmerged]
    intro p hp
    simp only [List.mem_append, List.mem_replicate] at hp
    rcases hp with ⟨_, rfl⟩ | ⟨_, rfl⟩ <;> rfl
  have hmlen : (mwMerged x1 x2).length = x2.length + x1.length := by
    rw [hmerged]; simp
  have hrank := rankLoop_const c (mwMerged x1 x2) hmne hmall 0
  have hT : mwT x1 x2 = [(mwMerged x1 x2).length] := by
    rw [mwT, mwRank, hrank]
  rw [MannWhitneyUTest]
  rw [if_neg (show ¬ (x1.length = 0 ∨ x2.length = 0) from by omega)]
  by_cases hexact : (mwHasTies x1 x2 = false ∧ x1.length ≤ MannWhitneyExactLimit
        ∧ x2.length ≤ MannWhitneyExactLimit)
      ∨ (mwHasTies x1 x2 = true ∧ x1.length ≤ MannWhitneyTiesExactLimit
        ∧ x2.length ≤ MannWhitneyTiesExactLimit)
  · rw [if_pos hexact]
    rw [if_pos (show (mwT x1 x2).length = 1 from by rw [hT]; rfl)]
  · rw [if_neg hexact]
    have hvals : (mwMerged x1 x2).map (fun p => p.1)
        = List.replicate (x2.length + x1.length) c := by
      rw [hmerged, List.map_append, List.map_replicate, List.map_replicate,
        ← List.replicate_add]
    have htc : tieCorrection ((mwMerged x1 x2).map (fun p => p.1))
        = ((x2.length + x1.length : ℕ) : ℚ)^3 - ((x2.length + x1.length : ℕ) : ℚ) := by
      rw [tieCorrection, hvals, tieCorrectionLoop_const c _ (by
          intro h
          have hlen := congrArg List.length h
          simp only [List.length_replicate, List.length_nil] at hlen
          omega) (fun x hx => List.eq_of_mem_replicate hx)]
      rw [List.length_replicate]
      push_cast
      ring
    have hNpos : (0 : ℚ) < ((x1.length + x2.length : ℕ) : ℚ) := by
      have h2' : (2 : ℚ) ≤ ((x1.length + x2.length : ℕ) : ℚ) := by
        exact_mod_cast (show 2 ≤ x1.length + x2.length from by omega)
      linarith
    have hN1pos : (0 : ℚ) < ((x1.length + x2.length : ℕ) : ℚ) - 1 := by
      have h2' : (2 : ℚ) ≤ ((x1.length + x2.length : ℕ) : ℚ) := by
        exact_mod_cast (show 2 ≤ x1.length + x2.length from by omega)
      linarith
    have hcomm : ((x2.length + x1.length : ℕ) : ℚ) = ((x1.length + x2.length : ℕ) : ℚ) := by
      push_cast
      ring
    have hfact : ((x1.length + x2.length : ℕ) : ℚ)^3 - ((x1.length + x2.length : ℕ) : ℚ)
        = (((x1.length + x2.length : ℕ) : ℚ) * (((x1.length + x2.length : ℕ) : ℚ) - 1))
          * (((x1.length + x2.length : ℕ) : ℚ) + 1) := by
      ring
    have hne0 : ((x1.length + x2.length : ℕ) : ℚ)
        * (((x1.length + x2.length : ℕ) : ℚ) - 1) ≠ 0 :=
      mul_ne_zero (ne_of_gt hNpos) (ne_of_gt hN1pos)
    have hrad : (((x1.length * x2.length : ℕ) : ℚ)
        * ((((x1.length + x2.length : ℕ) : ℚ) + 1)
          - (((x2.length + x1.length : ℕ) : ℚ)^3 - ((x2.length + x1.length : ℕ) : ℚ))
            / (((x1.length + x2.length : ℕ) : ℚ)
              * (((x1.length + x2.length : ℕ) : ℚ) - 1))) / 12) = 0 := by
      rw [hcomm, hfact, mul_div_cancel_left₀ _ hne0, sub_self]
      simp
    simp only []
    rw [htc, hrad, hsqrt]
    rw [if_pos rfl]

/-- C5 witness: {2,2} vs {2,2}. -/
theorem c5_witness :
    MannWhitneyUTest id id [2, 2] [2, 2] = .error .samplesEqual :=
  c5_all_equal id id rfl [2, 2] [2, 2] 2 (by norm_num) (by norm_num)
    (by intro v hv; simpa using hv) (by intro v hv; simpa using hv)

/-!
### Claim C4 — symmetry of the test under swapping the samples

The merged value sequence is the same for both call orders (it is the
sorted permutation of the combined values); T, hasTies and U are
therefore the same, and P agrees on the untied exact path and the
normal-approximation path.  On the tied exact path P differs (the tie
distribution `permCount` is not symmetric about the midpoint), which
refutes the claim as stated.
-/

/-- The labelled merge is a permutation of the two labelled inputs. -/
theorem labeledMerge_perm (a : List ℚ) : ∀ b : List ℚ,
    (labeledMerge a b).Perm (a.map (fun x => (x, 1)) ++ b.map (fun y => (y, 2))) := by
  induction a with
  | nil =>
    intro b
    simp [labeledMerge]
  | cons x xs iha =>
    intro b
    induction b with
    | nil =>
      simp [labeledMerge]
    | cons y ys ihb =>
      rw [labeledMerge]
      by_cases hxy : x < y
      · rw [if_pos hxy]
        exact (iha (y :: ys)).cons (x, 1)
      · rw [if_neg hxy]
        exact ((ihb).cons (y, 2)).trans List.perm_middle.symm

/-- The values of the merge are the values of the two inputs. -/
theorem labeledMerge_fst_mem (a b : List ℚ) (z : ℚ) :
    z ∈ (labeledMerge a b).map (fun p => p.1) ↔ z ∈ a ++ b := by
  rw [((labeledMerge_perm a b).map (fun p => p.1)).mem_iff]
  simp [Function.comp]

/-- Merging two sorted lists yields a sorted value sequence. -/
theorem labeledMerge_sorted (a : List ℚ) : ∀ b : List ℚ, a.Sorted (· ≤ ·) → b.Sorted (· ≤ ·) →
    ((labeledMerge a b).map (fun p => p.1)).Sorted (· ≤ ·) := by
  induction a with
  | nil =>
    intro b _ hb
    simp only [labeledMerge, List.map_map]
    rw [show ((fun p : ℚ × ℕ => p.1) ∘ fun y => (y, 2)) = id from rfl, List.map_id]
    exact hb
  | cons x xs iha =>
    intro b ha
    induction b with
    | nil =>
      intro _
      simp only [labeledMerge, List.map_map]
      rw [show ((fun p : ℚ × ℕ => p.1) ∘ fun x => (x, 1)) = id from rfl, List.map_id]
      exact ha
    | cons y ys ihb =>
      intro hb
      rw [labeledMerge]
      by_cases hxy : x < y
      · rw [if_pos hxy]
        simp only [List.map_cons]
        rw [List.sorted_cons]
        constructor
        · intro z hz
          rw [labeledMerge_fst_mem, List.mem_append] at hz
          rcases hz with hz | hz
          · exact (List.sorted_cons.mp ha).1 z hz
          · rcases List.mem_cons.mp hz with rfl | hz
            · exact le_of_lt hxy
            · exact le_of_lt (lt_of_lt_of_le hxy ((List.sorted_cons.mp hb).1 z hz))
        · exact iha (y :: ys) (List.sorted_cons.mp ha).2 hb
      · rw [if_neg hxy]
        simp only [List.map_cons]
        rw [List.sorted_cons]
        constructor
        · intro z hz
          rw [labeledMerge_fst_mem, List.mem_append] at hz
          rcases hz with hz | hz
          · rcases List.mem_cons.mp hz with rfl | hz
            · exact not_lt.mp hxy
            · exact le_trans (not_lt.mp hxy) ((List.sorted_cons.mp ha).1 z hz)
          · exact (List.sorted_cons.mp hb).1 z hz
        · exact ihb (List.sorted_cons.mp hb).2

/-- The merged value sequence does not depend on the call order. -/
theorem mwMerged_fst_symm (x1 x2 : List ℚ) :
    (mwMerged x1 x2).map (fun p => p.1) = (mwMerged x2 x1).map (fun p => p.1) := by
  haveI : IsAntisymm ℚ (· ≤ ·) := ⟨fun _ _ => le_antisymm⟩
  refine List.eq_of_perm_of_sorted (r := (· ≤ ·)) ?_ ?_ ?_
  · have h1 := (labeledMerge_perm (List.insertionSort (· ≤ ·) x1)
      (List.insertionSort (· ≤ ·) x2)).map (fun p => p.1)
    have h2 := (labeledMerge_perm (List.insertionSort (· ≤ ·) x2)
      (List.insertionSort (· ≤ ·) x1)).map (fun p => p.1)
    rw [mwMerged, mwMerged]
    refine h1.trans (List.Perm.trans ?_ h2.symm)
    simp only [List.map_append, List.map_map]
    exact List.perm_append_comm
  · exact labeledMerge_sorted _ _ (List.sorted_insertionSort _ _) (List.sorted_insertionSort _ _)
  · exact labeledMerge_sorted _ _ (List.sorted_insertionSort _ _) (List.sorted_insertionSort _ _)

/-- The run decomposition (takeWhile/dropWhile on the value) is
determined by the value sequence alone. -/
theorem run_split_eq (xs ys : List (ℚ × ℕ)) (v : ℚ)
    (h : xs.map (fun p => p.1) = ys.map (fun p => p.1)) :
    (xs.takeWhile (fun p => decide (p.1 = v))).length
        = (ys.takeWhile (fun p => decide (p.1 = v))).length
      ∧ (xs.dropWhile (fun p => decide (p.1 = v))).map (fun p => p.1)
        = (ys.dropWhile (fun p => decide (p.1 = v))).map (fun p => p.1) := by
  have e : (fun (p : ℚ × ℕ) => decide (p.1 = v))
      = ((fun x : ℚ => decide (x = v)) ∘ (fun p : ℚ × ℕ => p.1)) := rfl
  constructor
  · have h1 : ((xs.map (fun p => p.1)).takeWhile (fun x => decide (x = v))).length
        = ((ys.map (fun p => p.1)).takeWhile (fun x => decide (x = v))).length := by rw [h]
    rw [List.takeWhile_map, List.takeWhile_map, List.length_map, List.length_map] at h1
    rw [e]
    exact h1
  · have h1 : ((xs.map (fun p => p.1)).dropWhile (fun x => decide (x = v)))
        = ((ys.map (fun p => p.1)).dropWhile (fun x => decide (x = v))) := by rw [h]
    rw [List.dropWhile_map, List.dropWhile_map] at h1
    rw [e]
    exact h1

/-- T and hasTies of the ranking loop depend only on the value
sequence (the labels only enter R1). -/
theorem rankLoop_snd_eq (n : ℕ) : ∀ (xs ys : List (ℚ × ℕ)), xs.length ≤ n →
    xs.map (fun p => p.1) = ys.map (fun p => p.1) →
    ∀ pos pos2, (rankLoop xs pos).2 = (rankLoop ys pos2).2 := by
  induction n with
  | zero =>
    intro xs ys hlen h pos pos2
    have hx : xs = [] := by
      cases xs with
      | nil => rfl
      | cons p rest => simp at hlen
    subst hx
    have hy : ys = [] := by
      have hl := congrArg List.length h
      simp only [List.length_map, List.length_nil] at hl
      cases ys with
      | nil => rfl
      | cons q rest' => simp at hl
    subst hy
    rw [rankLoop, rankLoop]
  | succ n ih =>
    intro xs ys hlen h pos pos2
    cases xs with
    | nil =>
      have hy : ys = [] := by
        have hl := congrArg List.length h
        simp only [List.length_map, List.length_nil] at hl
        cases ys with
        | nil => rfl
        | cons q rest' => simp at hl
      subst hy
      rw [rankLoop, rankLoop]
    | cons p rest =>
      cases ys with
      | nil =>
        have hl := congrArg List.length h
        simp at hl
      | cons q rest' =>
        obtain ⟨v, l⟩ := p
        obtain ⟨w, m⟩ := q
        have hvw : v = w := by
          simp only [List.map_cons] at h
          exact (List.cons.injEq _ _ _ _ ▸ h : _ ∧ _).1
        subst hvw
        obtain ⟨hlen_eq, hdrop⟩ := run_split_eq ((v, l) :: rest) ((v, m) :: rest') v h
        have hdlen : (((v, l) :: rest).dropWhile (fun p => decide (p.1 = v))).length ≤ n := by
          have hd : ((v, l) :: rest).dropWhile (fun p => decide (p.1 = v))
              = rest.dropWhile (fun p => decide (p.1 = v)) := by
            rw [List.dropWhile_cons, if_pos (by simp)]
          rw [hd]
          have := (List.dropWhile_sublist (l := rest) (fun p : ℚ × ℕ => decide (p.1 = v))).length_le
          simp only [List.length_cons] at hlen
          omega
        have hrec := ih (((v, l) :: rest).dropWhile (fun p => decide (p.1 = v)))
          (((v, m) :: rest').dropWhile (fun p => decide (p.1 = v))) hdlen hdrop
        rw [rankLoop, rankLoop]
        simp only []
        rw [hlen_eq]
        have h2 := hrec (pos + (((v, m) :: rest').takeWhile (fun p => decide (p.1 = v))).length)
          (pos2 + (((v, m) :: rest').takeWhile (fun p => decide (p.1 = v))).length)
        rw [congrArg Prod.fst h2, congrArg Prod.snd h2]

/-- The tie vector is independent of the call order. -/
theorem mwT_symm (x1 x2 : List ℚ) : mwT x1 x2 = mwT x2 x1 := by
  have h := rankLoop_snd_eq (mwMerged x1 x2).length (mwMerged x1 x2) (mwMerged x2 x1)
    (Nat.le_refl _) (mwMerged_fst_symm x1 x2) 0 0
  rw [mwT, mwT, mwRank, mwRank]
  rw [show ((rankLoop (mwMerged x1 x2) 0).2.1 : List ℕ)
    = (rankLoop (mwMerged x2 x1) 0).2.1 from by rw [h]]

/-- hasTies is independent of the call order. -/
theorem mwHasTies_symm (x1 x2 : List ℚ) : mwHasTies x1 x2 = mwHasTies x2 x1 := by
  have h := rankLoop_snd_eq (mwMerged x1 x2).length (mwMerged x1 x2) (mwMerged x2 x1)
    (Nat.le_refl _) (mwMerged_fst_symm x1 x2) 0 0
  rw [mwHasTies, mwHasTies, mwRank, mwRank]
  rw [show ((rankLoop (mwMerged x1 x2) 0).2.2 : Bool)
    = (rankLoop (mwMerged x2 x1) 0).2.2 from by rw [h]]

/-- Every element of the merge is labelled 1 or 2. -/
theorem labeledMerge_labels (a b : List ℚ) : ∀ p ∈ labeledMerge a b, p.2 = 1 ∨ p.2 = 2 := by
  intro p hp
  have := (labeledMerge_perm a b).mem_iff.mp hp
  rw [List.mem_append] at this
  rcases this with h | h
  · obtain ⟨x, _, rfl⟩ := List.mem_map.mp h
    exact Or.inl rfl
  · obtain ⟨y, _, rfl⟩ := List.mem_map.mp h
    exact Or.inr rfl

/-- The number of (v,1) pairs in the merge is the multiplicity of v in
the first sample. -/
theorem labeledMerge_count1 (a b : List ℚ) (v : ℚ) :
    ((labeledMerge a b).filter (fun p => decide (p = (v, 1)))).length
      = (a.filter (fun x => decide (x = v))).length := by
  rw [((labeledMerge_perm a b).filter (fun p => decide (p = (v, 1)))).length_eq]
  rw [List.filter_append, List.length_append]
  have h1 : (a.map (fun x => (x, 1))).filter (fun p => decide (p = (v, 1)))
      = (a.filter (fun x => decide (x = v))).map (fun x => (x, 1)) := by
    rw [List.filter_map]
    congr 1
    apply List.filter_congr
    intro x _
    simp [Function.comp, Prod.ext_iff]
  have h2 : (b.map (fun y => (y, 2))).filter (fun p => decide (p = (v, 1))) = [] := by
    rw [List.filter_eq_nil_iff]
    intro p hp
    obtain ⟨y, _, rfl⟩ := List.mem_map.mp hp
    simp [Prod.ext_iff]
  rw [h1, h2]
  simp

/-- The number of (v,2) pairs in the merge is the multiplicity of v in
the second sample. -/
theorem labeledMerge_count2 (a b : List ℚ) (v : ℚ) :
    ((labeledMerge a b).filter (fun p => decide (p = (v, 2)))).length
      = (b.filter (fun x => decide (x = v))).length := by
  rw [((labeledMerge_perm a b).filter (fun p => decide (p = (v, 2)))).length_eq]
  rw [List.filter_append, List.length_append]
  have h1 : (a.map (fun x => (x, 1))).filter (fun p => decide (p = (v, 2))) = [] := by
    rw [List.filter_eq_nil_iff]
    intro p hp
    obtain ⟨x, _, rfl⟩ := List.mem_map.mp hp
    simp [Prod.ext_iff]
  have h2 : (b.map (fun y => (y, 2))).filter (fun p => decide (p = (v, 2)))
      = (b.filter (fun x => decide (x = v))).map (fun y => (y, 2)) := by
    rw [List.filter_map]
    congr 1
    apply List.filter_congr
    intro x _
    simp [Function.comp, Prod.ext_iff]
  rw [h1, h2]
  simp

/-- Swapping the two labels (a proof-side construction used to relate
R1 of the two call orders). -/
def relabel (xs : List (ℚ × ℕ)) : List (ℚ × ℕ) :=
  xs.map (fun p => (p.1, if p.2 = 1 then 2 else 1))

theorem relabel_map_fst (xs : List (ℚ × ℕ)) :
    (relabel xs).map (fun p => p.1) = xs.map (fun p => p.1) := by
  rw [relabel, List.map_map]
  rfl

/-- After the run of v, all values in a sorted sequence exceed v. -/
theorem dropWhile_fst_gt (xs : List (ℚ × ℕ)) (v : ℚ)
    (hsort : (xs.map (fun p => p.1)).Sorted (· ≤ ·))
    (hge : ∀ p ∈ xs, v ≤ p.1) :
    ∀ p ∈ xs.dropWhile (fun p => decide (p.1 = v)), v < p.1 := by
  cases hd : xs.dropWhile (fun p => decide (p.1 = v)) with
  | nil => simp
  | cons w rest =>
    intro p hp
    have hwne : ¬ (w.1 = v) := by
      have h2 := List.head_dropWhile_not (fun p : ℚ × ℕ => decide (p.1 = v)) xs
        (by rw [hd]; simp)
      have h3 : (xs.dropWhile (fun p : ℚ × ℕ => decide (p.1 = v))).head (by rw [hd]; simp)
          = w := by simp [hd]
      rw [h3] at h2
      simpa using h2
    have hwmem : w ∈ xs := (List.dropWhile_sublist _).subset (by rw [hd]; simp)
    have hwgt : v < w.1 := lt_of_le_of_ne (hge w hwmem) (fun h => hwne h.symm)
    have hsort2 : ((xs.dropWhile (fun p => decide (p.1 = v))).map (fun p => p.1)).Sorted (· ≤ ·) := by
      have e : (fun (p : ℚ × ℕ) => decide (p.1 = v))
          = ((fun x : ℚ => decide (x = v)) ∘ (fun p : ℚ × ℕ => p.1)) := rfl
      rw [e, ← List.dropWhile_map]
      exact List.Pairwise.sublist (List.dropWhile_sublist _) hsort
    rw [hd] at hsort2
    simp only [List.map_cons] at hsort2
    rcases List.mem_cons.mp hp with rfl | hp
    · exact hwgt
    · have hle := (List.sorted_cons.mp hsort2).1 p.1 (List.mem_map.mpr ⟨p, hp, rfl⟩)
      exact lt_of_lt_of_le hwgt hle

/-- In a sorted sequence all of whose values are ≥ v, the (v,1) pairs
all live in the initial run of v. -/
theorem run_filter_count (xs : List (ℚ × ℕ)) (v : ℚ)
    (hsort : (xs.map (fun p => p.1)).Sorted (· ≤ ·))
    (hge : ∀ p ∈ xs, v ≤ p.1) :
    ((xs.takeWhile (fun p => decide (p.1 = v))).filter (fun p => decide (p.2 = 1))).length
      = (xs.filter (fun p => decide (p = (v, 1)))).length := by
  conv_rhs => rw [← List.takeWhile_append_dropWhile (p := fun p : ℚ × ℕ => decide (p.1 = v)) (l := xs)]
  rw [List.filter_append, List.length_append]
  have h1 : (xs.takeWhile (fun p => decide (p.1 = v))).filter (fun p => decide (p = (v, 1)))
      = (xs.takeWhile (fun p => decide (p.1 = v))).filter (fun p => decide (p.2 = 1)) := by
    apply List.filter_congr
    intro p hp
    have hv : p.1 = v := by simpa using List.mem_takeWhile_imp hp
    simp [Prod.ext_iff, hv]
  have h2 : (xs.dropWhile (fun p => decide (p.1 = v))).filter (fun p => decide (p = (v, 1)))
      = [] := by
    rw [List.filter_eq_nil_iff]
    intro p hp
    have hgt := dropWhile_fst_gt xs v hsort hge p hp
    simp only [decide_eq_true_eq]
    intro h
    rw [h] at hgt
    exact lt_irrefl v hgt
  rw [h1, h2]
  simp

/-- R1 of a sequence plus R1 of the label-swapped sequence is the sum
of all assigned ranks pos+1 … pos+len. -/
theorem rankLoop_add_relabel (n : ℕ) : ∀ (xs : List (ℚ × ℕ)), xs.length ≤ n →
    (∀ p ∈ xs, p.2 = 1 ∨ p.2 = 2) →
    ∀ pos : ℕ, (rankLoop xs pos).1 + (rankLoop (relabel xs) pos).1
      = (xs.length : ℚ) * (2 * (pos : ℚ) + (xs.length : ℚ) + 1) / 2 := by
  induction n with
  | zero =>
    intro xs hlen _ pos
    have hx : xs = [] := by
      cases xs with
      | nil => rfl
      | cons p rest => simp at hlen
    subst hx
    rw [show relabel ([] : List (ℚ × ℕ)) = [] from rfl, rankLoop]
    norm_num
  | succ n ih =>
    intro xs hlen hlab pos
    cases xs with
    | nil =>
      rw [show relabel ([] : List (ℚ × ℕ)) = [] from rfl, rankLoop]
      norm_num
    | cons p rest =>
      obtain ⟨v, l⟩ := p
      rw [show relabel ((v, l) :: rest)
          = (v, if l = 1 then 2 else 1) :: relabel rest from rfl]
      rw [rankLoop, rankLoop]
      simp only []
      have htake : ((v, if l = 1 then 2 else 1) :: relabel rest).takeWhile
            (fun p => decide (p.1 = v))
          = relabel (((v, l) :: rest).takeWhile (fun p => decide (p.1 = v))) := by
        rw [show (v, if l = 1 then 2 else 1) :: relabel rest
            = relabel ((v, l) :: rest) from rfl]
        rw [relabel, List.takeWhile_map]
        rfl
      have hdropr : ((v, if l = 1 then 2 else 1) :: relabel rest).dropWhile
            (fun p => decide (p.1 = v))
          = relabel (((v, l) :: rest).dropWhile (fun p => decide (p.1 = v))) := by
        rw [show (v, if l = 1 then 2 else 1) :: relabel rest
            = relabel ((v, l) :: rest) from rfl]
        rw [relabel, List.dropWhile_map]
        rfl
      rw [htake, hdropr]
      have hlenr : (relabel (((v, l) :: rest).takeWhile (fun p => decide (p.1 = v)))).length
          = (((v, l) :: rest).takeWhile (fun p => decide (p.1 = v))).length := by
        rw [relabel, List.length_map]
      rw [hlenr]
      have hrunsub : ∀ q ∈ ((v, l) :: rest).takeWhile (fun p => decide (p.1 = v)),
          q ∈ (v, l) :: rest := fun q hq => (List.takeWhile_sublist _).subset hq
      have hnxr : ((relabel (((v, l) :: rest).takeWhile (fun p => decide (p.1 = v)))).filter
            (fun p => decide (p.2 = 1))).length
          = ((((v, l) :: rest).takeWhile (fun p => decide (p.1 = v))).filter
            (fun p => ! decide (p.2 = 1))).length := by
        rw [relabel, List.filter_map, List.length_map]
        congr 1
        apply List.filter_congr
        intro q hq
        rcases hlab q (hrunsub q hq) with h1 | h2
        · simp [Function.comp, h1]
        · simp [Function.comp, h2]
      rw [hnxr]
      have hsplit := congrArg List.length
        (List.takeWhile_append_dropWhile (p := fun p : ℚ × ℕ => decide (p.1 = v))
          (l := (v, l) :: rest))
      rw [List.length_append] at hsplit
      have hrunpos : 1 ≤ (((v, l) :: rest).takeWhile (fun p => decide (p.1 = v))).length := by
        rw [List.takeWhile_cons_of_pos (by simp)]
        simp
      have hdlen : (((v, l) :: rest).dropWhile (fun p => decide (p.1 = v))).length ≤ n := by
        have hd : ((v, l) :: rest).dropWhile (fun p => decide (p.1 = v))
            = rest.dropWhile (fun p => decide (p.1 = v)) := by
          rw [List.dropWhile_cons, if_pos (by simp)]
        rw [hd]
        have := (List.dropWhile_sublist (l := rest) (fun p : ℚ × ℕ => decide (p.1 = v))).length_le
        simp only [List.length_cons] at hlen
        omega
      have hdlab : ∀ q ∈ ((v, l) :: rest).dropWhile (fun p => decide (p.1 = v)),
          q.2 = 1 ∨ q.2 = 2 :=
        fun q hq => hlab q ((List.dropWhile_sublist _).subset hq)
      have hIH := ih (((v, l) :: rest).dropWhile (fun p => decide (p.1 = v))) hdlen hdlab
        (pos + (((v, l) :: rest).takeWhile (fun p => decide (p.1 = v))).length)
      have hcompl := List.length_eq_length_filter_add
        (l := ((v, l) :: rest).takeWhile (fun p => decide (p.1 = v)))
        (fun p => decide (p.2 = 1))
      set L := (((v, l) :: rest).takeWhile (fun p => decide (p.1 = v))).length with hL
      set R := (((v, l) :: rest).dropWhile (fun p => decide (p.1 = v))).length with hR
      set a := ((((v, l) :: rest).takeWhile (fun p => decide (p.1 = v))).filter
        (fun p => decide (p.2 = 1))).length with ha
      set b := ((((v, l) :: rest).takeWhile (fun p => decide (p.1 = v))).filter
        (fun p => ! decide (p.2 = 1))).length with hb
      have hab : L = a + b := hcompl
      simp only [List.length_cons] at hsplit
      have hN : rest.length + 1 = L + R := hsplit.symm
      have hAA : (if a ≠ 0 then (((pos + L : ℕ) : ℚ) + ((pos + 1 : ℕ) : ℚ)) / 2 * (a : ℚ) else 0)
          + (if b ≠ 0 then (((pos + L : ℕ) : ℚ) + ((pos + 1 : ℕ) : ℚ)) / 2 * (b : ℚ) else 0)
          = (L : ℚ) * (2 * (pos : ℚ) + (L : ℚ) + 1) / 2 := by
        by_cases h0 : a = 0
        · rw [if_neg (by simp [h0]), if_pos (by omega)]
          have hbL : b = L := by omega
          rw [hbL]
          push_cast
          ring
        · by_cases h1 : b = 0
          · rw [if_pos h0, if_neg (by simp [h1])]
            have haL : a = L := by omega
            rw [haL]
            push_cast
            ring
          · rw [if_pos h0, if_pos h1]
            have hq : (a : ℚ) + (b : ℚ) = (L : ℚ) := by push_cast [hab]; ring
            push_cast
            rw [← hq]
            ring
      rw [List.length_cons, show rest.length + 1 = L + R from by omega]
      push_cast at hIH hAA ⊢
      linear_combination hIH + hAA

/-- R1 depends only on the value sequence, its sortedness and the
per-value multiplicity of label 1. -/
theorem rankLoop_fst_eq (n : ℕ) : ∀ (xs ys : List (ℚ × ℕ)), xs.length ≤ n →
    xs.map (fun p => p.1) = ys.map (fun p => p.1) →
    (xs.map (fun p => p.1)).Sorted (· ≤ ·) →
    (∀ v : ℚ, (xs.filter (fun p => decide (p = (v, 1)))).length
      = (ys.filter (fun p => decide (p = (v, 1)))).length) →
    ∀ pos, (rankLoop xs pos).1 = (rankLoop ys pos).1 := by
  induction n with
  | zero =>
    intro xs ys hlen h _ _ pos
    have hx : xs = [] := by
      cases xs with
      | nil => rfl
      | cons p rest => simp at hlen
    subst hx
    have hy : ys = [] := by
      have hl := congrArg List.length h
      simp only [List.length_map, List.length_nil] at hl
      cases ys with
      | nil => rfl
      | cons q rest' => simp at hl
    subst hy
    rw [rankLoop]
  | succ n ih =>
    intro xs ys hlen h hsort hcount pos
    cases xs with
    | nil =>
      have hy : ys = [] := by
        have hl := congrArg List.length h
        simp only [List.length_map, List.length_nil] at hl
        cases ys with
        | nil => rfl
        | cons q rest' => simp at hl
      subst hy
      rw [rankLoop]
    | cons p rest =>
      cases ys with
      | nil =>
        have hl := congrArg List.length h
        simp at hl
      | cons q rest' =>
        obtain ⟨v, l⟩ := p
        obtain ⟨w, m⟩ := q
        have hvw : v = w := by
          simp only [List.map_cons] at h
          exact (List.cons.injEq _ _ _ _ ▸ h : _ ∧ _).1
        subst hvw
        obtain ⟨hlen_eq, hdrop⟩ := run_split_eq ((v, l) :: rest) ((v, m) :: rest') v h
        have hsorty : (((v, m) :: rest').map (fun p => p.1)).Sorted (· ≤ ·) := h ▸ hsort
        have hgex : ∀ p ∈ (v, l) :: rest, v ≤ p.1 := by
          intro p hp
          rcases List.mem_cons.mp hp with rfl | hp
          · exact le_refl v
          · have hs := hsort
            simp only [List.map_cons] at hs
            exact (List.sorted_cons.mp hs).1 p.1 (List.mem_map.mpr ⟨p, hp, rfl⟩)
        have hgey : ∀ p ∈ (v, m) :: rest', v ≤ p.1 := by
          intro p hp
          rcases List.mem_cons.mp hp with rfl | hp
          · exact le_refl v
          · have hs := hsorty
            simp only [List.map_cons] at hs
            exact (List.sorted_cons.mp hs).1 p.1 (List.mem_map.mpr ⟨p, hp, rfl⟩)
        have hnx : ((((v, l) :: rest).takeWhile (fun p => decide (p.1 = v))).filter
              (fun p => decide (p.2 = 1))).length
            = ((((v, m) :: rest').takeWhile (fun p => decide (p.1 = v))).filter
              (fun p => decide (p.2 = 1))).length := by
          rw [run_filter_count ((v, l) :: rest) v hsort hgex, hcount v,
            run_filter_count ((v, m) :: rest') v hsorty hgey]
        have hdlen : (((v, l) :: rest).dropWhile (fun p => decide (p.1 = v))).length ≤ n := by
          have hd : ((v, l) :: rest).dropWhile (fun p => decide (p.1 = v))
              = rest.dropWhile (fun p => decide (p.1 = v)) := by
            rw [List.dropWhile_cons, if_pos (by simp)]
          rw [hd]
          have := (List.dropWhile_sublist (l := rest) (fun p : ℚ × ℕ => decide (p.1 = v))).length_le
          simp only [List.length_cons] at hlen
          omega
        have hsortd : ((((v, l) :: rest).dropWhile (fun p => decide (p.1 = v))).map
            (fun p => p.1)).Sorted (· ≤ ·) := by
          have e : (fun (p : ℚ × ℕ) => decide (p.1 = v))
              = ((fun x : ℚ => decide (x = v)) ∘ (fun p : ℚ × ℕ => p.1)) := rfl
          rw [e, ← List.dropWhile_map]
          exact List.Pairwise.sublist (List.dropWhile_sublist _) hsort
        have hcountd : ∀ u : ℚ,
            ((((v, l) :: rest).dropWhile (fun p => decide (p.1 = v))).filter
              (fun p => decide (p = (u, 1)))).length
            = ((((v, m) :: rest').dropWhile (fun p => decide (p.1 = v))).filter
              (fun p => decide (p = (u, 1)))).length := by
          intro u
          have hx := congrArg List.length (congrArg (List.filter (fun p => decide (p = (u, 1))))
            (List.takeWhile_append_dropWhile (p := fun p : ℚ × ℕ => decide (p.1 = v))
              (l := (v, l) :: rest)))
          have hy := congrArg List.length (congrArg (List.filter (fun p => decide (p = (u, 1))))
            (List.takeWhile_append_dropWhile (p := fun p : ℚ × ℕ => decide (p.1 = v))
              (l := (v, m) :: rest')))
          rw [List.filter_append, List.length_append] at hx hy
          by_cases huv : u = v
          · subst huv
            have hrx : (((u, l) :: rest).takeWhile (fun p => decide (p.1 = u))).filter
                  (fun p => decide (p = (u, 1)))
                = (((u, l) :: rest).takeWhile (fun p => decide (p.1 = u))).filter
                  (fun p => decide (p.2 = 1)) := by
              apply List.filter_congr
              intro p hp
              have hv : p.1 = u := by simpa using List.mem_takeWhile_imp hp
              simp [Prod.ext_iff, hv]
            have hry : (((u, m) :: rest').takeWhile (fun p => decide (p.1 = u))).filter
                  (fun p => decide (p = (u, 1)))
                = (((u, m) :: rest').takeWhile (fun p => decide (p.1 = u))).filter
                  (fun p => decide (p.2 = 1)) := by
              apply List.filter_congr
              intro p hp
              have hv : p.1 = u := by simpa using List.mem_takeWhile_imp hp
              simp [Prod.ext_iff, hv]
            rw [hrx] at hx
            rw [hry] at hy
            have hc := hcount u
            omega
          · have hrx : (((v, l) :: rest).takeWhile (fun p => decide (p.1 = v))).filter
                (fun p => decide (p = (u, 1))) = [] := by
              rw [List.filter_eq_nil_iff]
              intro p hp
              have hv : p.1 = v := by simpa using List.mem_takeWhile_imp hp
              simp only [decide_eq_true_eq]
              intro he
              rw [he] at hv
              exact huv (by simpa using hv)
            have hry : (((v, m) :: rest').takeWhile (fun p => decide (p.1 = v))).filter
                (fun p => decide (p = (u, 1))) = [] := by
              rw [List.filter_eq_nil_iff]
              intro p hp
              have hv : p.1 = v := by simpa using List.mem_takeWhile_imp hp
              simp only [decide_eq_true_eq]
              intro he
              rw [he] at hv
              exact huv (by simpa using hv)
            rw [hrx] at hx
            rw [hry] at hy
            have hc := hcount u
            simp only [List.length_nil] at hx hy
            omega
        have hrec := ih (((v, l) :: rest).dropWhile (fun p => decide (p.1 = v)))
          (((v, m) :: rest').dropWhile (fun p => decide (p.1 = v))) hdlen hdrop hsortd hcountd
        rw [rankLoop, rankLoop]
        simp only []
        rw [hlen_eq, hnx]
        rw [hrec (pos + (((v, m) :: rest').takeWhile (fun p => decide (p.1 = v))).length)]

/-- Relabelling turns (v,1)-counts into (v,2)-counts. -/
theorem relabel_count (xs : List (ℚ × ℕ)) (hlab : ∀ p ∈ xs, p.2 = 1 ∨ p.2 = 2) (v : ℚ) :
    ((relabel xs).filter (fun p => decide (p = (v, 1)))).length
      = (xs.filter (fun p => decide (p = (v, 2)))).length := by
  rw [relabel, List.filter_map, List.length_map]
  congr 1
  apply List.filter_congr
  intro p hp
  rcases hlab p hp with h1 | h2
  · simp [Function.comp, Prod.ext_iff, h1]
  · simp [Function.comp, Prod.ext_iff, h2]

theorem mwMerged_labels (x1 x2 : List ℚ) : ∀ p ∈ mwMerged x1 x2, p.2 = 1 ∨ p.2 = 2 :=
  labeledMerge_labels _ _

theorem mwMerged_sorted (x1 x2 : List ℚ) :
    ((mwMerged x1 x2).map (fun p => p.1)).Sorted (· ≤ ·) :=
  labeledMerge_sorted _ _ (List.sorted_insertionSort _ x1) (List.sorted_insertionSort _ x2)

theorem mwMerged_length (x1 x2 : List ℚ) :
    (mwMerged x1 x2).length = x1.length + x2.length := by
  rw [mwMerged, (labeledMerge_perm _ _).length_eq]
  simp

/-- R1 of the swapped call equals R1 of the relabelled merge. -/
theorem mwR1_swap_relabel (x1 x2 : List ℚ) :
    mwR1 x2 x1 = (rankLoop (relabel (mwMerged x1 x2)) 0).1 := by
  rw [mwR1, mwRank]
  exact rankLoop_fst_eq (mwMerged x2 x1).length (mwMerged x2 x1)
    (relabel (mwMerged x1 x2)) (le_refl _)
    (by rw [relabel_map_fst]; exact mwMerged_fst_symm x2 x1)
    (mwMerged_sorted x2 x1)
    (fun v => by
      rw [relabel_count (mwMerged x1 x2) (mwMerged_labels x1 x2) v]
      simp only [mwMerged]
      rw [labeledMerge_count1, labeledMerge_count2])
    0

/-- R1 of the two call orders sums to N(N+1)/2. -/
theorem mwR1_add (x1 x2 : List ℚ) :
    mwR1 x1 x2 + mwR1 x2 x1
      = ((x1.length + x2.length : ℕ) : ℚ) * (((x1.length + x2.length : ℕ) : ℚ) + 1) / 2 := by
  rw [mwR1_swap_relabel x1 x2, mwR1, mwRank]
  have h := rankLoop_add_relabel (mwMerged x1 x2).length (mwMerged x1 x2) (le_refl _)
    (mwMerged_labels x1 x2) 0
  rw [mwMerged_length] at h
  push_cast at h ⊢
  linear_combination h

/-- U1 of the swapped call equals U2 of the original call. -/
theorem mwU1_swap (x1 x2 : List ℚ) : mwU1 x2 x1 = mwU2 x1 x2 := by
  rw [mwU1, mwU2, mwU1]
  have h := mwR1_add x1 x2
  push_cast at h ⊢
  linear_combination h

/-- U2 of the swapped call equals U1 of the original call. -/
theorem mwU2_swap (x1 x2 : List ℚ) : mwU2 x2 x1 = mwU1 x1 x2 := by
  rw [mwU2, mwU1_swap x2 x1, mwU2]

/-- The reported U statistic is symmetric in the two samples. -/
theorem mwU_symm (x1 x2 : List ℚ) : mwU x1 x2 = mwU x2 x1 := by
  rw [mwU, mwU, mwU1_swap x1 x2, mwU2_swap x1 x2, min_comm]

/-- The hasTies flag of the ranking loop is exactly "some tie count in
T exceeds 1". -/
theorem rankLoop_any (n : ℕ) : ∀ (xs : List (ℚ × ℕ)), xs.length ≤ n → ∀ pos,
    ((rankLoop xs pos).2.1).any (fun t => decide (1 < t)) = (rankLoop xs pos).2.2 := by
  induction n with
  | zero =>
    intro xs hlen pos
    have hx : xs = [] := by
      cases xs with
      | nil => rfl
      | cons p rest => simp at hlen
    subst hx
    rw [rankLoop]
    rfl
  | succ n ih =>
    intro xs hlen pos
    cases xs with
    | nil =>
      rw [rankLoop]
      rfl
    | cons p rest =>
      obtain ⟨v, l⟩ := p
      have hdlen : (((v, l) :: rest).dropWhile (fun p => decide (p.1 = v))).length ≤ n := by
        have hd : ((v, l) :: rest).dropWhile (fun p => decide (p.1 = v))
            = rest.dropWhile (fun p => decide (p.1 = v)) := by
          rw [List.dropWhile_cons, if_pos (by simp)]
        rw [hd]
        have := (List.dropWhile_sublist (l := rest) (fun p : ℚ × ℕ => decide (p.1 = v))).length_le
        simp only [List.length_cons] at hlen
        omega
      rw [rankLoop]
      simp only [List.any_cons]
      rw [ih (((v, l) :: rest).dropWhile (fun p => decide (p.1 = v))) hdlen
        (pos + (((v, l) :: rest).takeWhile (fun p => decide (p.1 = v))).length)]

/-- mwHasTies agrees with the hasTies predicate of the UDist built
from the T vector. -/
theorem mwT_any (x1 x2 : List ℚ) :
    (mwT x1 x2).any (fun t => decide (1 < t)) = mwHasTies x1 x2 := by
  rw [mwT, mwHasTies, mwRank]
  exact rankLoop_any (mwMerged x1 x2).length (mwMerged x1 x2) (le_refl _) 0

/-- For an untied distribution, the CDF is symmetric in N1 and N2. -/
theorem UDist_CDF_comm (N1 N2 : ℕ) (T : List ℕ)
    (h : (UDist.mk N1 N2 T).hasTies = false) (U : ℚ) :
    (UDist.mk N1 N2 T).CDF U = (UDist.mk N2 N1 T).CDF U := by
  have h2 : (UDist.mk N2 N1 T).hasTies = false := h
  rw [UDist.CDF, UDist.CDF]
  rw [if_neg (show ¬ ((UDist.mk N1 N2 T).hasTies = true) from by rw [h]; simp)]
  rw [if_neg (show ¬ ((UDist.mk N2 N1 T).hasTies = true) from by rw [h2]; simp)]
  simp only [UDist.p]
  simp only [Nat.mul_comm N2 N1, min_comm N2 N1, max_comm N2 N1]

/-- Away from the tied exact-CDF case, swapping the samples swaps the
N1/N2 fields and keeps error, U and P. -/
theorem MannWhitneyUTest_swap (sqrt Φ : ℚ → ℚ) (x1 x2 : List ℚ)
    (hside : ¬ (mwHasTies x1 x2 = true ∧ x1.length ≤ MannWhitneyTiesExactLimit
        ∧ x2.length ≤ MannWhitneyTiesExactLimit ∧ mwU1 x1 x2 ≠ mwU2 x1 x2)) :
    MannWhitneyUTest sqrt Φ x2 x1
      = (MannWhitneyUTest sqrt Φ x1 x2).map
          (fun r => ⟨r.N2, r.N1, r.U, r.P⟩) := by
  rw [MannWhitneyUTest, MannWhitneyUTest]
  by_cases hz : x1.length = 0 ∨ x2.length = 0
  · rw [if_pos hz, if_pos (Or.symm hz)]
    rfl
  · rw [if_neg hz, if_neg (fun h => hz (Or.symm h))]
    by_cases hp : (mwHasTies x1 x2 = false ∧ x1.length ≤ MannWhitneyExactLimit
          ∧ x2.length ≤ MannWhitneyExactLimit)
        ∨ (mwHasTies x1 x2 = true ∧ x1.length ≤ MannWhitneyTiesExactLimit
          ∧ x2.length ≤ MannWhitneyTiesExactLimit)
    · have hp' : (mwHasTies x2 x1 = false ∧ x2.length ≤ MannWhitneyExactLimit
            ∧ x1.length ≤ MannWhitneyExactLimit)
          ∨ (mwHasTies x2 x1 = true ∧ x2.length ≤ MannWhitneyTiesExactLimit
            ∧ x1.length ≤ MannWhitneyTiesExactLimit) := by
        rw [mwHasTies_symm x2 x1]
        tauto
      rw [if_pos hp', if_pos hp]
      by_cases hT : (mwT x1 x2).length = 1
      · rw [if_pos (show (mwT x2 x1).length = 1 from by rw [mwT_symm x2 x1]; exact hT),
          if_pos hT]
        rfl
      · rw [if_neg (show ¬ (mwT x2 x1).length = 1 from by rw [mwT_symm x2 x1]; exact hT),
          if_neg hT]
        by_cases he : mwU1 x1 x2 = mwU2 x1 x2
        · have he' : mwU1 x2 x1 = mwU2 x2 x1 := by
            rw [mwU1_swap x1 x2, mwU2_swap x1 x2]
            exact he.symm
          rw [if_pos he', if_pos he]
          rw [mwU_symm x2 x1]
          rfl
        · have he' : ¬ mwU1 x2 x1 = mwU2 x2 x1 := by
            rw [mwU1_swap x1 x2, mwU2_swap x1 x2]
            exact fun hh => he hh.symm
          rw [if_neg he', if_neg he]
          have hnoties : mwHasTies x1 x2 = false := by
            rcases hp with ⟨hf, _, _⟩ | ⟨ht, h9a, h9b⟩
            · exact hf
            · exact absurd ⟨ht, h9a, h9b, he⟩ hside
          rw [mwT_symm x2 x1, mwU_symm x2 x1]
          rw [← UDist_CDF_comm x1.length x2.length (mwT x1 x2)
            (by rw [UDist.hasTies]; dsimp only; rw [mwT_any x1 x2]; exact hnoties)
            (mwU x1 x2)]
          rfl
    · rw [if_neg (show ¬ _ from by rw [mwHasTies_symm x2 x1]; tauto), if_neg hp]
      simp only []
      have ht : tieCorrection ((mwMerged x2 x1).map (fun p => p.1))
          = tieCorrection ((mwMerged x1 x2).map (fun p => p.1)) := by
        rw [mwMerged_fst_symm x2 x1]
      have hN : ((x2.length + x1.length : ℕ) : ℚ) = ((x1.length + x2.length : ℕ) : ℚ) := by
        push_cast
        ring
      have hmul : ((x2.length * x1.length : ℕ) : ℚ) = ((x1.length * x2.length : ℕ) : ℚ) := by
        push_cast
        ring
      rw [ht, hN, hmul, mwU_symm x2 x1]
      by_cases hσ : sqrt (((x1.length * x2.length : ℕ) : ℚ)
          * ((((x1.length + x2.length : ℕ) : ℚ) + 1)
            - tieCorrection ((mwMerged x1 x2).map (fun p => p.1))
              / (((x1.length + x2.length : ℕ) : ℚ)
                * (((x1.length + x2.length : ℕ) : ℚ) - 1))) / 12) = 0
      · rw [if_pos hσ, if_pos hσ]
        rfl
      · rw [if_neg hσ, if_neg hσ]
        rfl

/-- C4 (corrected): swapping the two samples swaps the N1 and N2
fields and yields the same error, the same U, and the same P — except
on the tied exact path with U1 ≠ U2 (ties present, both samples within
the ties-exact limit of 9), where the doubled tail of the asymmetric
tie distribution differs between the two call orders. -/
theorem c4_swap_symm (sqrt Φ : ℚ → ℚ) (x1 x2 : List ℚ)
    (hside : ¬ (mwHasTies x1 x2 = true ∧ x1.length ≤ MannWhitneyTiesExactLimit
        ∧ x2.length ≤ MannWhitneyTiesExactLimit ∧ mwU1 x1 x2 ≠ mwU2 x1 x2)) :
    MannWhitneyUTest sqrt Φ x2 x1
      = (MannWhitneyUTest sqrt Φ x1 x2).map
          (fun r => ⟨r.N2, r.N1, r.U, r.P⟩) :=
  MannWhitneyUTest_swap sqrt Φ x1 x2 hside

/-- C4 witness: for the untied samples {1,2} and {3}, the swapped call
is the N-swapped original (same U, same P). -/
theorem c4_witness :
    MannWhitneyUTest id id [(3 : ℚ)] [1, 2]
      = (MannWhitneyUTest id id [(1 : ℚ), 2] [3]).map
          (fun r => ⟨r.N2, r.N1, r.U, r.P⟩) :=
  c4_swap_symm id id [1, 2] [3] (by
    intro h
    have hh := h.1
    rw [show mwHasTies [(1 : ℚ), 2] [3] = false from by
      norm_num [mwHasTies, mwRank, mwMerged, labeledMerge, rankLoop.eq_def,
        List.insertionSort, List.orderedInsert, List.takeWhile, List.dropWhile]] at hh
    simp at hh)

/-- C4 counterexample to the claim as stated: on the tied exact path,
{1} vs {2,2} gives P = 2/3 while {2,2} vs {1} gives P = 0 (both report
U = 0). -/
theorem c4_counterexample :
    MannWhitneyUTest id id [(1 : ℚ)] [2, 2] = .ok ⟨1, 2, 0, 2/3⟩
    ∧ MannWhitneyUTest id id [(2 : ℚ), 2] [1] = .ok ⟨2, 1, 0, 0⟩
    ∧ (2/3 : ℚ) ≠ 0 := by
  refine ⟨?_, ?_, by norm_num⟩
  · rw [MannWhitneyUTest]
    norm_num [mwHasTies, mwT, mwU, mwU1, mwU2, mwR1, mwRank, mwMerged, labeledMerge,
      rankLoop.eq_def, List.insertionSort, List.orderedInsert, List.takeWhile,
      List.dropWhile, MannWhitneyTiesExactLimit, MannWhitneyExactLimit,
      UDist.CDF, UDist.hasTies, UDist.permCount, boxList, sumint, twoUOf, twoUAux,
      permProd, choose, List.range_succ]
  · rw [MannWhitneyUTest]
    norm_num [mwHasTies, mwT, mwU, mwU1, mwU2, mwR1, mwRank, mwMerged, labeledMerge,
      rankLoop.eq_def, List.insertionSort, List.orderedInsert, List.takeWhile,
      List.dropWhile, MannWhitneyTiesExactLimit, MannWhitneyExactLimit,
      UDist.CDF, UDist.hasTies, UDist.permCount, boxList, sumint, twoUOf, twoUAux,
      permProd, choose, List.range_succ]

/-!
### Claim C7 — `UDist.Step`

The spec says `Step()` is 1 for untied statistics and 0.5 when ties are
present; the code returns 0.5 unconditionally.
-/

/-- C7 counterexample: the untied distribution UDist{1,1} has no ties,
yet `Step()` returns 0.5, not 1 as the claim states. -/
theorem c7_counterexample :
    (UDist.mk 1 1 []).hasTies = false ∧ (UDist.mk 1 1 []).Step ≠ 1 := by
  constructor
  · rfl
  · intro h
    simp [UDist.Step] at h
    norm_num at h

/-- C7 (amended): `UDist.Step` returns 0.5 unconditionally, for tied
and untied distributions alike. -/
theorem c7_step_always_half (d : UDist) : d.Step = 0.5 := rfl

/-!
### `BinomialDist` and `QuantileCI` (quantileci.go)

Floats are ℚ; `math.Sqrt` and the normal distribution's `CDF`/`InvCDF`
(external collaborators) are supplied as function parameters.
-/

/-- `BinomialDist` from the binomial-distribution source. -/
structure BinomialDist where
  N : ℕ
  P : ℚ
deriving DecidableEq, Repr

/-- `BinomialDist.PMF`: floor the argument to an int; out of [0,N] is
0; otherwise C(N,k)·P^k·(1−P)^(N−k). -/
def BinomialDist.PMF (d : BinomialDist) (k : ℚ) : ℚ :=
  let ki : ℤ := ⌊k⌋
  if ki < 0 ∨ (d.N : ℤ) < ki then 0
  else (choose d.N ki.toNat : ℚ) * d.P ^ ki.toNat * (1 - d.P) ^ (d.N - ki.toNat)

def BinomialDist.Mean (d : BinomialDist) : ℚ := (d.N : ℚ) * d.P

def BinomialDist.Variance (d : BinomialDist) : ℚ := (d.N : ℚ) * d.P * (1 - d.P)

/-- Modelled from the spec: the normal distribution collaborator is
identified by its Mu and Sigma parameters. -/
structure NormalDist where
  Mu : ℚ
  Sigma : ℚ
deriving DecidableEq, Repr

/-- `BinomialDist.NormalApprox`, with `math.Sqrt` supplied. -/
def BinomialDist.NormalApprox (sqrt : ℚ → ℚ) (d : BinomialDist) : NormalDist :=
  ⟨d.Mean, sqrt d.Variance⟩

/-- `QuantileCIResult` from `quantileci.go`. LoOrder/HiOrder are Go
ints and may leave [1,N]. -/
structure QuantileCIResult where
  Quantile : ℚ
  N : ℕ
  Confidence : ℚ
  LoOrder : ℤ
  HiOrder : ℤ
  Ambiguous : Bool
deriving DecidableEq, Repr

/-- Default of the package-level variable `quantileCIApproxThreshold`. -/
def quantileCIApproxThreshold : ℕ := 30

/-- The starting index x of the small-n accumulation: the (lower) mode
of the binomial distribution, `int(math.Ceil(float64(n+1)*q) - 1)`,
with the special case x = 0 for q = 0. -/
def qciMode (n : ℕ) (q : ℚ) : ℤ :=
  if q = 0 then 0 else ⌈((n : ℚ) + 1) * q⌉ - 1

/-- The probability-accumulation loop of the small-n path of
`QuantileCI`, with an explicit trip-count bound: every iteration
either moves l down (possible only while l-1 is within [0,n], so l is
within [1,n+1]) or moves r up (possible only while r is within [0,n]),
so the loop always stops within any fuel ≥ l + (n+1-r) + 1, and the
fuel never changes the result. State: (l, r, lp, rp, accum,
Ambiguous); returns (l, r, accum, Ambiguous). -/
def quantileCILoop (d : BinomialDist) (confidence : ℚ) :
    ℕ → ℤ → ℤ → ℚ → ℚ → ℚ → Bool → ℤ × ℤ × ℚ × Bool
  | 0, l, r, _, _, accum, amb => (l, r, accum, amb)
  | fuel+1, l, r, lp, rp, accum, amb =>
    if accum < confidence ∧ (0 < lp ∨ 0 < rp) then
      if rp ≤ lp then
        quantileCILoop d confidence fuel (l-1) r (d.PMF ((l-2 : ℤ) : ℚ)) rp
          (accum + lp) (decide (lp = rp))
      else
        quantileCILoop d confidence fuel l (r+1) lp (d.PMF ((r+1 : ℤ) : ℚ))
          (accum + rp) (decide (lp = rp))
    else (l, r, accum, amb)

/-- The local closure `cdf(l, r) = norm.CDF(r-0.5) - norm.CDF(l-0.5)`
of the normal-approximation path of `QuantileCI`, with the normal CDF
(at the already-fixed Mu and Sigma) passed as Φ. -/
def qciCDF (Φ : ℚ → ℚ) (l r : ℤ) : ℚ := Φ ((r : ℚ) - 0.5) - Φ ((l : ℚ) - 0.5)

/-- The tail of the normal-approximation path of `QuantileCI`
(confidence computation, left-biasing, full-range adjustment), given
the band [l, r) already computed. -/
def qciLargeBody (Φ : ℚ → ℚ) (n : ℕ) (confidence : ℚ) (l r : ℤ) : ℤ × ℤ × ℚ × Bool :=
  let conf := qciCDF Φ l r
  let rBiased := r - 1
  let aBiased := qciCDF Φ l rBiased
  let takeBiased : Bool := decide (confidence ≤ aBiased ∧ aBiased < conf)
  let conf2 := if takeBiased then aBiased else conf
  let r2 := if takeBiased then rBiased else r
  if l ≤ 0 ∧ (n : ℤ) + 1 ≤ r2 then (l, r2, 1, false)
  else (l, r2, conf2, takeBiased)

/-- `QuantileCI` from `quantileci.go`, with `math.Sqrt` and the normal
distribution's `CDF` and `InvCDF` (functions of Mu, Sigma and the
argument) supplied by the caller. -/
def QuantileCI (sqrt : ℚ → ℚ) (normCDF normInvCDF : ℚ → ℚ → ℚ → ℚ)
    (n : ℕ) (q confidence : ℚ) : QuantileCIResult :=
  if 1 ≤ confidence then ⟨q, n, 1, 0, (n : ℤ) + 1, false⟩
  else
    let samp : BinomialDist := ⟨n, q⟩
    let body : ℤ × ℤ × ℚ × Bool :=
      if samp.N ≤ quantileCIApproxThreshold then
        let x := qciMode n q
        let accum := samp.PMF (x : ℚ)
        let lp := samp.PMF ((x - 1 : ℤ) : ℚ)
        let rp := samp.PMF ((x + 1 : ℤ) : ℚ)
        quantileCILoop samp confidence (2 * n + 2) x (x + 1) lp rp accum
          (decide (rp = accum))
      else
        let norm := samp.NormalApprox sqrt
        let alpha := (1 - confidence) / 2
        let l1 := normInvCDF norm.Mu norm.Sigma alpha
        let r1 := 2 * norm.Mu - l1
        let l : ℤ := ⌊(⌊l1 - 0.5⌋ : ℚ) + 0.5⌋ + 1
        let r : ℤ := ⌊(⌈r1 - 0.5⌉ : ℚ) + 0.5⌋ + 1
        qciLargeBody (normCDF norm.Mu norm.Sigma) n confidence l r
    ⟨q, n, body.2.2.1,
      if body.1 < 0 then 0 else body.1,
      if (n : ℤ) + 1 < body.2.1 then (n : ℤ) + 1 else body.2.1,
      body.2.2.2⟩

/-- PMF at an in-range integer point. -/
theorem BinomialDist.PMF_int (n : ℕ) (q : ℚ) (k : ℤ) (h0 : 0 ≤ k) (hn : k ≤ (n : ℤ)) :
    (BinomialDist.mk n q).PMF (k : ℚ)
      = (choose n k.toNat : ℚ) * q ^ k.toNat * (1 - q) ^ (n - k.toNat) := by
  rw [BinomialDist.PMF]
  simp only [Int.floor_intCast]
  rw [if_neg (show ¬ (k < 0 ∨ ((BinomialDist.mk n q).N : ℤ) < k) from by
    simp only [BinomialDist]
    omega)]

/-- PMF vanishes at out-of-range integer points. -/
theorem BinomialDist.PMF_int_zero (n : ℕ) (q : ℚ) (k : ℤ)
    (h : k < 0 ∨ (n : ℤ) < k) :
    (BinomialDist.mk n q).PMF (k : ℚ) = 0 := by
  rw [BinomialDist.PMF]
  simp only [Int.floor_intCast]
  rw [if_pos (show k < 0 ∨ ((BinomialDist.mk n q).N : ℤ) < k from by
    simp only [BinomialDist]
    omega)]

/-- PMF is positive strictly inside the support when 0 < q < 1. -/
theorem BinomialDist.PMF_int_pos (n : ℕ) (q : ℚ) (hq0 : 0 < q) (hq1 : q < 1) (k : ℤ)
    (h0 : 0 ≤ k) (hn : k ≤ (n : ℤ)) :
    0 < (BinomialDist.mk n q).PMF (k : ℚ) := by
  rw [BinomialDist.PMF_int n q k h0 hn]
  have hch : 0 < choose n k.toNat := by
    rw [choose]
    exact Nat.choose_pos (by omega)
  have h1q : (0 : ℚ) < 1 - q := by linarith
  have : (0 : ℚ) < (choose n k.toNat : ℚ) := by exact_mod_cast hch
  positivity

/-- The binomial masses over [0, n] sum to 1. -/
theorem binomial_sum_Icc (n : ℕ) (q : ℚ) :
    ∑ k ∈ Finset.Icc (0 : ℤ) (n : ℤ), (BinomialDist.mk n q).PMF (k : ℚ) = 1 := by
  have h1 : ∑ k ∈ Finset.Icc (0 : ℤ) (n : ℤ), (BinomialDist.mk n q).PMF (k : ℚ)
      = ∑ j ∈ Finset.range (n+1), (choose n j : ℚ) * q ^ j * (1 - q) ^ (n - j) := by
    apply Finset.sum_nbij' (fun k : ℤ => k.toNat) (fun j : ℕ => (j : ℤ))
    · intro a ha
      simp only [Finset.mem_Icc] at ha
      simp only [Finset.mem_range]
      omega
    · intro a ha
      simp only [Finset.mem_range] at ha
      simp only [Finset.mem_Icc]
      omega
    · intro a ha
      simp only [Finset.mem_Icc] at ha
      omega
    · intro a _
      exact Int.toNat_natCast a
    · intro a ha
      simp only [Finset.mem_Icc] at ha
      rw [BinomialDist.PMF_int n q a ha.1 ha.2]
  rw [h1]
  have h2 := add_pow q (1 - q) n
  rw [show q + (1 - q) = 1 from by ring, one_pow] at h2
  exact (Finset.sum_congr rfl fun j _ => by rw [choose]; ring).trans h2.symm

/-- One non-step of the accumulation loop. -/
theorem quantileCILoop_stop (d : BinomialDist) (c : ℚ) (fuel : ℕ) (l r : ℤ)
    (lp rp accum : ℚ) (amb : Bool) (h : ¬ (accum < c ∧ (0 < lp ∨ 0 < rp))) :
    quantileCILoop d c (fuel + 1) l r lp rp accum amb = (l, r, accum, amb) := by
  rw [quantileCILoop, if_neg h]

/-- Invariant of the small-n accumulation loop for 0 < q < 1: from a
window [l, r) with matching neighbor masses and window sum, and enough
fuel, the loop ends with l < r, l ≤ n+1, 0 ≤ r, and accumulated
confidence ≥ c (either the guard stopped it, or the whole unit mass
was accumulated). -/
theorem quantileCILoop_spec (n : ℕ) (q c : ℚ) (hq0 : 0 < q) (hq1 : q < 1) (hc : c ≤ 1)
    (fuel : ℕ) :
    ∀ (l r : ℤ) (lp rp accum : ℚ) (amb : Bool),
    lp = (BinomialDist.mk n q).PMF ((l - 1 : ℤ) : ℚ) →
    rp = (BinomialDist.mk n q).PMF ((r : ℤ) : ℚ) →
    l < r → l ≤ (n : ℤ) + 1 → 0 ≤ r →
    l.toNat + ((n : ℤ) + 1 - r).toNat < fuel →
    accum = ∑ k ∈ Finset.Icc l (r - 1), (BinomialDist.mk n q).PMF (k : ℚ) →
    ∀ res : ℤ × ℤ × ℚ × Bool,
      res = quantileCILoop ⟨n, q⟩ c fuel l r lp rp accum amb →
      res.1 < res.2.1 ∧ res.1 ≤ (n : ℤ) + 1 ∧ 0 ≤ res.2.1 ∧ c ≤ res.2.2.1 := by
  induction fuel with
  | zero =>
    intro l r lp rp accum amb _ _ _ _ _ hfuel _ res _
    exact absurd hfuel (by omega)
  | succ fuel ih =>
    intro l r lp rp accum amb hlp hrp hlr hln hr0 hfuel haccum res hres
    rw [quantileCILoop] at hres
    by_cases hguard : accum < c ∧ (0 < lp ∨ 0 < rp)
    · rw [if_pos hguard] at hres
      by_cases hbr : rp ≤ lp
      · rw [if_pos hbr] at hres
        have hlppos : 0 < lp := by
          rcases hguard.2 with h | h
          · exact h
          · exact lt_of_lt_of_le h hbr
        have hl1 : 0 ≤ l - 1 := by
          by_contra hcon
          have hz := BinomialDist.PMF_int_zero n q (l - 1) (Or.inl (by omega))
          rw [hlp, hz] at hlppos
          exact lt_irrefl 0 hlppos
        have hl2 : l - 1 ≤ (n : ℤ) := by
          by_contra hcon
          have hz := BinomialDist.PMF_int_zero n q (l - 1) (Or.inr (by omega))
          rw [hlp, hz] at hlppos
          exact lt_irrefl 0 hlppos
        have hins : Finset.Icc (l - 1) (r - 1) = insert (l - 1) (Finset.Icc l (r - 1)) := by
          ext k
          simp only [Finset.mem_Icc, Finset.mem_insert]
          omega
        have hnotmem : (l - 1) ∉ Finset.Icc l (r - 1) := by
          simp only [Finset.mem_Icc]
          omega
        have haccum2 : accum + lp
            = ∑ k ∈ Finset.Icc (l - 1) (r - 1), (BinomialDist.mk n q).PMF (k : ℚ) := by
          rw [hins, Finset.sum_insert hnotmem, hlp, haccum]
          ring
        exact ih (l - 1) r ((BinomialDist.mk n q).PMF ((l - 2 : ℤ) : ℚ)) rp (accum + lp)
          (decide (lp = rp))
          (by rw [show ((l : ℤ) - 1 - 1) = l - 2 from by ring]) hrp
          (by omega) (by omega) hr0 (by omega) haccum2 res hres
      · rw [if_neg hbr] at hres
        have hrppos : 0 < rp := by
          rcases hguard.2 with h | h
          · exact lt_of_lt_of_le h (le_of_not_le hbr)
          · exact h
        have hr1 : 0 ≤ r := hr0
        have hr2 : r ≤ (n : ℤ) := by
          by_contra hcon
          have hz := BinomialDist.PMF_int_zero n q r (Or.inr (by omega))
          rw [hrp, hz] at hrppos
          exact lt_irrefl 0 hrppos
        have hins : Finset.Icc l r = insert r (Finset.Icc l (r - 1)) := by
          ext k
          simp only [Finset.mem_Icc, Finset.mem_insert]
          omega
        have hnotmem : r ∉ Finset.Icc l (r - 1) := by
          simp only [Finset.mem_Icc]
          omega
        have haccum2 : accum + rp
            = ∑ k ∈ Finset.Icc l ((r + 1) - 1), (BinomialDist.mk n q).PMF (k : ℚ) := by
          rw [show ((r : ℤ) + 1 - 1) = r from by ring, hins, Finset.sum_insert hnotmem,
            hrp, haccum]
          ring
        exact ih l (r + 1) lp ((BinomialDist.mk n q).PMF ((r + 1 : ℤ) : ℚ)) (accum + rp)
          (decide (lp = rp)) hlp rfl
          (by omega) hln (by omega) (by omega) haccum2 res hres
    · rw [if_neg hguard] at hres
      subst hres
      refine ⟨hlr, hln, hr0, ?_⟩
      rcases not_and_or.mp hguard with h | h
      · exact le_of_not_lt h
      · push_neg at h
        have hl0 : l ≤ 0 := by
          by_contra hcon
          have hpos := BinomialDist.PMF_int_pos n q hq0 hq1 (l - 1) (by omega) (by omega)
          rw [← hlp] at hpos
          exact absurd hpos (not_lt.mpr h.1)
        have hrn : (n : ℤ) + 1 ≤ r := by
          by_contra hcon
          have hpos := BinomialDist.PMF_int_pos n q hq0 hq1 r hr0 (by omega)
          rw [← hrp] at hpos
          exact absurd hpos (not_lt.mpr h.2)
        have hsub : Finset.Icc (0 : ℤ) (n : ℤ) ⊆ Finset.Icc l (r - 1) := by
          intro k hk
          simp only [Finset.mem_Icc] at hk ⊢
          omega
        have hzero : ∀ k ∈ Finset.Icc l (r - 1), k ∉ Finset.Icc (0 : ℤ) (n : ℤ) →
            (BinomialDist.mk n q).PMF (k : ℚ) = 0 := by
          intro k _ hnk
          apply BinomialDist.PMF_int_zero
          by_contra hcc
          push_neg at hcc
          exact hnk (Finset.mem_Icc.mpr ⟨by omega, by omega⟩)
        have hone : accum = 1 := by
          rw [haccum, ← Finset.sum_subset hsub hzero]
          exact binomial_sum_Icc n q
        rw [hone]
        exact hc

/-- The starting mode is within [0, n] for q ∈ [0, 1]. -/
theorem qciMode_bounds (n : ℕ) (q : ℚ) (hq0 : 0 ≤ q) (hq1 : q ≤ 1) :
    0 ≤ qciMode n q ∧ qciMode n q ≤ (n : ℤ) := by
  rw [qciMode]
  by_cases h : q = 0
  · rw [if_pos h]
    omega
  · rw [if_neg h]
    have hpos : (0 : ℚ) < q := lt_of_le_of_ne hq0 (Ne.symm h)
    have h1 : 0 < ⌈((n : ℚ) + 1) * q⌉ := by
      rw [Int.ceil_pos]
      positivity
    have h2 : ⌈((n : ℚ) + 1) * q⌉ ≤ (n : ℤ) + 1 := by
      apply Int.ceil_le.mpr
      push_cast
      nlinarith
    omega

/-- The small-n loop, started at the mode, ends with l < r, l ≤ n+1,
0 ≤ r and accumulated confidence ≥ c, for any q, c ∈ [0, 1]. -/
theorem c6_small_core (n : ℕ) (q c : ℚ)
    (hq0 : 0 ≤ q) (hq1 : q ≤ 1) (hc0 : 0 ≤ c) (hc1 : c ≤ 1) (amb : Bool) :
    ∀ res : ℤ × ℤ × ℚ × Bool,
    res = quantileCILoop ⟨n, q⟩ c (2 * n + 2) (qciMode n q) (qciMode n q + 1)
      ((BinomialDist.mk n q).PMF ((qciMode n q - 1 : ℤ) : ℚ))
      ((BinomialDist.mk n q).PMF ((qciMode n q + 1 : ℤ) : ℚ))
      ((BinomialDist.mk n q).PMF ((qciMode n q : ℤ) : ℚ)) amb →
    res.1 < res.2.1 ∧ res.1 ≤ (n : ℤ) + 1 ∧ 0 ≤ res.2.1 ∧ c ≤ res.2.2.1 := by
  intro res hres
  obtain ⟨hx0, hxn⟩ := qciMode_bounds n q hq0 hq1
  by_cases hq0' : q = 0
  · subst hq0'
    have hmode : qciMode n 0 = 0 := by rw [qciMode, if_pos rfl]
    have hone : (BinomialDist.mk n 0).PMF ((qciMode n 0 : ℤ) : ℚ) = 1 := by
      rw [hmode, BinomialDist.PMF_int n 0 0 le_rfl (by omega)]
      norm_num [choose]
    rw [show 2 * n + 2 = (2 * n + 1) + 1 from by omega,
      quantileCILoop_stop _ _ _ _ _ _ _ _ _
        (fun hh => by rw [hone] at hh; linarith [hh.1])] at hres
    subst hres
    dsimp only
    refine ⟨by omega, by omega, by omega, ?_⟩
    rw [hone]
    exact hc1
  · by_cases hq1' : q = 1
    · subst hq1'
      have hmode : qciMode n 1 = (n : ℤ) := by
        rw [qciMode, if_neg (by norm_num)]
        rw [show ((n : ℚ) + 1) * 1 = ((n + 1 : ℕ) : ℚ) from by push_cast; ring,
          Int.ceil_natCast]
        push_cast
        ring
      have hone : (BinomialDist.mk n 1).PMF ((qciMode n 1 : ℤ) : ℚ) = 1 := by
        rw [hmode, BinomialDist.PMF_int n 1 (n : ℤ) (by omega) le_rfl]
        rw [Int.toNat_natCast, Nat.sub_self, pow_zero, choose, Nat.choose_self]
        norm_num
      rw [show 2 * n + 2 = (2 * n + 1) + 1 from by omega,
        quantileCILoop_stop _ _ _ _ _ _ _ _ _
          (fun hh => by rw [hone] at hh; linarith [hh.1])] at hres
      subst hres
      dsimp only
      refine ⟨by omega, by omega, by omega, ?_⟩
      rw [hone]
      exact hc1
    · have hq0'' : 0 < q := lt_of_le_of_ne hq0 (Ne.symm hq0')
      have hq1'' : q < 1 := lt_of_le_of_ne hq1 hq1'
      exact quantileCILoop_spec n q c hq0'' hq1'' hc1 (2 * n + 2)
        (qciMode n q) (qciMode n q + 1) _ _ _ amb rfl rfl
        (by omega) (by omega) (by omega) (by omega)
        (by rw [show (qciMode n q + 1 - 1 : ℤ) = qciMode n q from by ring,
          Finset.Icc_self, Finset.sum_singleton]) res hres

/-- Lo ≤ Hi and c ≤ Confidence on the small-n path. -/
theorem c6_small (sqrt : ℚ → ℚ) (normCDF normInvCDF : ℚ → ℚ → ℚ → ℚ)
    (n : ℕ) (q c : ℚ)
    (hq0 : 0 ≤ q) (hq1 : q ≤ 1) (hc0 : 0 ≤ c) (hc1 : c ≤ 1)
    (hc : ¬ 1 ≤ c) (hn : n ≤ quantileCIApproxThreshold) :
    (QuantileCI sqrt normCDF normInvCDF n q c).LoOrder
        ≤ (QuantileCI sqrt normCDF normInvCDF n q c).HiOrder
    ∧ c ≤ (QuantileCI sqrt normCDF normInvCDF n q c).Confidence := by
  rw [QuantileCI, if_neg hc]
  simp only []
  rw [if_pos (show (BinomialDist.mk n q).N ≤ quantileCIApproxThreshold from hn)]
  set R := quantileCILoop ⟨n, q⟩ c (2 * n + 2) (qciMode n q) (qciMode n q + 1)
    ((BinomialDist.mk n q).PMF ((qciMode n q - 1 : ℤ) : ℚ))
    ((BinomialDist.mk n q).PMF ((qciMode n q + 1 : ℤ) : ℚ))
    ((BinomialDist.mk n q).PMF ((qciMode n q : ℤ) : ℚ))
    (decide ((BinomialDist.mk n q).PMF ((qciMode n q + 1 : ℤ) : ℚ)
      = (BinomialDist.mk n q).PMF ((qciMode n q : ℤ) : ℚ))) with hR
  obtain ⟨h1, h2, h3, h4⟩ := c6_small_core n q c hq0 hq1 hc0 hc1 _ R hR
  refine ⟨?_, ?_⟩
  · split_ifs <;> omega
  · exact h4

/-- Floor of an integer plus one half. -/
theorem floor_intCast_add_half (a : ℤ) : ⌊((a : ℚ) + 0.5)⌋ = a := by
  rw [add_comm, Int.floor_add_int]
  norm_num

/-- The rounded-out band of the continuity correction: the interval
[l, r) covers the central (1-c) mass and satisfies the order and range
bounds, for any strictly monotone CDF symmetric about mu with
CDF(l1) = (1-c)/2. -/
theorem c6_large_core (n : ℕ) (c : ℚ) (Φ : ℚ → ℚ) (mu l1 : ℚ)
    (hmono : StrictMono Φ)
    (hsymm : ∀ x, Φ (2 * mu - x) = 1 - Φ x)
    (hfl1 : Φ l1 = (1 - c) / 2)
    (hc0 : 0 ≤ c) (hc1 : c < 1)
    (hmu0 : 0 ≤ mu) (hmun : mu ≤ (n : ℚ)) :
    ∀ l r : ℤ,
    l = ⌊(↑⌊l1 - 0.5⌋ : ℚ) + 0.5⌋ + 1 →
    r = ⌊(↑⌈2 * mu - l1 - 0.5⌉ : ℚ) + 0.5⌋ + 1 →
    c ≤ Φ ((r : ℚ) - 0.5) - Φ ((l : ℚ) - 0.5)
    ∧ l ≤ r ∧ l ≤ (n : ℤ) ∧ 1 ≤ r := by
  intro l r hl hr
  rw [floor_intCast_add_half] at hl hr
  have hfmu : Φ mu = 1 / 2 := by
    have h := hsymm mu
    rw [show 2 * mu - mu = mu from by ring] at h
    linarith
  have hl1mu : l1 ≤ mu := by
    apply hmono.le_iff_le.mp
    rw [hfl1, hfmu]
    linarith
  have hlq : (l : ℚ) ≤ l1 + 0.5 := by
    rw [hl]
    push_cast
    have := Int.floor_le (l1 - 0.5)
    linarith
  have hrq2 : (2 * mu - l1) + 0.5 ≤ (r : ℚ) := by
    rw [hr]
    push_cast
    have := Int.le_ceil (2 * mu - l1 - 0.5)
    linarith
  have hconf : c ≤ Φ ((r : ℚ) - 0.5) - Φ ((l : ℚ) - 0.5) := by
    have h1 : Φ ((l : ℚ) - 0.5) ≤ Φ l1 := hmono.monotone (by linarith)
    have h2 : Φ (2 * mu - l1) ≤ Φ ((r : ℚ) - 0.5) := hmono.monotone (by linarith)
    have h3 : Φ (2 * mu - l1) = 1 - Φ l1 := hsymm l1
    rw [hfl1] at h1
    rw [h3, hfl1] at h2
    linarith
  have hlr : l ≤ r := by
    have : (l : ℚ) ≤ (r : ℚ) := by linarith
    exact_mod_cast this
  have hln : l ≤ (n : ℤ) := by
    have h1 : (l : ℚ) < (n : ℚ) + 1 := by linarith
    have h2 : l < (n : ℤ) + 1 := by exact_mod_cast h1
    omega
  have hr1 : 1 ≤ r := by
    have h1 : (0 : ℚ) < (r : ℚ) := by linarith
    have h2 : (0 : ℤ) < r := by exact_mod_cast h1
    omega
  exact ⟨hconf, hlr, hln, hr1⟩

/-- The tail of the normal-approximation path keeps Lo ≤ Hi bounds
and Confidence ≥ c, given a strictly monotone CDF and a band that
already covers the central c mass. -/
theorem qciLargeBody_spec (Φ : ℚ → ℚ) (n : ℕ) (c : ℚ) (l r : ℤ)
    (hmono : StrictMono Φ) (hc0 : 0 ≤ c) (hc1 : c < 1)
    (hconf : c ≤ qciCDF Φ l r) (hlr : l ≤ r) (hln : l ≤ (n : ℤ)) (hr1 : 1 ≤ r) :
    ∀ res : ℤ × ℤ × ℚ × Bool, res = qciLargeBody Φ n c l r →
    res.1 ≤ res.2.1 ∧ res.1 ≤ (n : ℤ) + 1 ∧ 0 ≤ res.2.1 ∧ c ≤ res.2.2.1 := by
  intro res hres
  rw [qciLargeBody] at hres
  simp only [decide_eq_true_eq] at hres
  have hbias : c ≤ qciCDF Φ l (r - 1) → l ≤ r - 1 := by
    intro hab
    have h0 : (0 : ℚ) ≤ qciCDF Φ l (r - 1) := le_trans hc0 hab
    rw [qciCDF] at h0
    have h1 : Φ ((l : ℚ) - 0.5) ≤ Φ (((r - 1 : ℤ) : ℚ) - 0.5) := by linarith
    have h2 := hmono.le_iff_le.mp h1
    have h3 : (l : ℚ) ≤ ((r - 1 : ℤ) : ℚ) := by linarith
    have h4 : l ≤ r - 1 := by exact_mod_cast h3
    omega
  by_cases hb : c ≤ qciCDF Φ l (r - 1) ∧ qciCDF Φ l (r - 1) < qciCDF Φ l r
  · rw [if_pos hb, if_pos hb] at hres
    have hlr1 : l ≤ r - 1 := hbias hb.1
    by_cases hfull : l ≤ 0 ∧ (n : ℤ) + 1 ≤ r - 1
    · rw [if_pos hfull] at hres
      subst hres
      dsimp only
      exact ⟨by omega, by omega, by omega, by linarith⟩
    · rw [if_neg hfull] at hres
      subst hres
      dsimp only
      exact ⟨by omega, by omega, by omega, hb.1⟩
  · rw [if_neg hb, if_neg hb] at hres
    by_cases hfull : l ≤ 0 ∧ (n : ℤ) + 1 ≤ r
    · rw [if_pos hfull] at hres
      subst hres
      dsimp only
      exact ⟨by omega, by omega, by omega, by linarith⟩
    · rw [if_neg hfull] at hres
      subst hres
      dsimp only
      exact ⟨by omega, by omega, by omega, hconf⟩

/-- Lo ≤ Hi and c ≤ Confidence on the normal-approximation path. -/
theorem c6_large (sqrt : ℚ → ℚ) (normCDF normInvCDF : ℚ → ℚ → ℚ → ℚ)
    (n : ℕ) (q c : ℚ)
    (hq0 : 0 ≤ q) (hq1 : q ≤ 1) (hc0 : 0 ≤ c)
    (hc : ¬ 1 ≤ c) (hn : ¬ n ≤ quantileCIApproxThreshold)
    (hmono : ∀ mu sigma, StrictMono (normCDF mu sigma))
    (hsymm : ∀ mu sigma x, normCDF mu sigma (2 * mu - x) = 1 - normCDF mu sigma x)
    (hinv : ∀ mu sigma y, 0 ≤ y → y ≤ 1 →
      normCDF mu sigma (normInvCDF mu sigma y) = y) :
    (QuantileCI sqrt normCDF normInvCDF n q c).LoOrder
        ≤ (QuantileCI sqrt normCDF normInvCDF n q c).HiOrder
    ∧ c ≤ (QuantileCI sqrt normCDF normInvCDF n q c).Confidence := by
  rw [QuantileCI, if_neg hc]
  simp only [BinomialDist.NormalApprox, BinomialDist.Mean, BinomialDist.Variance]
  rw [if_neg (show ¬ (BinomialDist.mk n q).N ≤ quantileCIApproxThreshold from hn)]
  set MU : ℚ := (n : ℚ) * q with hMU
  set SG : ℚ := sqrt (MU * (1 - q)) with hSG
  set A1 : ℚ := normInvCDF MU SG ((1 - c) / 2) with hA1
  set L : ℤ := ⌊(↑⌊A1 - 0.5⌋ : ℚ) + 0.5⌋ + 1 with hL
  set R : ℤ := ⌊(↑⌈2 * MU - A1 - 0.5⌉ : ℚ) + 0.5⌋ + 1 with hR
  have hclt : c < 1 := lt_of_not_le hc
  have hphi : normCDF MU SG A1 = (1 - c) / 2 := by
    rw [hA1]
    exact hinv MU SG ((1 - c) / 2) (by linarith) (by linarith)
  have hcore := c6_large_core n c (normCDF MU SG) MU A1 (hmono MU SG) (hsymm MU SG)
    hphi hc0 hclt (by rw [hMU]; positivity)
    (by rw [hMU]; nlinarith [Nat.cast_nonneg (α := ℚ) n]) L R hL hR
  obtain ⟨hconf, hlr, hln, hr1⟩ := hcore
  obtain ⟨h1, h2, h3, h4⟩ := qciLargeBody_spec (normCDF MU SG) n c L R (hmono MU SG)
    hc0 hclt (by rw [qciCDF]; exact hconf) hlr hln hr1 _ rfl
  constructor
  · split_ifs <;> omega
  · exact h4

/-!
### Claim C6 — LoOrder ≤ HiOrder and Confidence ≥ requested
-/

/-- C6: for every n ≥ 0, quantile q ∈ [0,1] and requested confidence
c ∈ [0,1], the result of QuantileCI satisfies LoOrder ≤ HiOrder and
Confidence ≥ c — provided the external normal-distribution
collaborator is well-behaved: its CDF (at any Mu, Sigma) is strictly
monotone and symmetric about Mu, and InvCDF is its right inverse on
[0,1]. -/
theorem c6_quantile_ci (sqrt : ℚ → ℚ) (normCDF normInvCDF : ℚ → ℚ → ℚ → ℚ)
    (n : ℕ) (q c : ℚ)
    (hq0 : 0 ≤ q) (hq1 : q ≤ 1) (hc0 : 0 ≤ c) (hc1 : c ≤ 1)
    (hmono : ∀ mu sigma, StrictMono (normCDF mu sigma))
    (hsymm : ∀ mu sigma x, normCDF mu sigma (2 * mu - x) = 1 - normCDF mu sigma x)
    (hinv : ∀ mu sigma y, 0 ≤ y → y ≤ 1 →
      normCDF mu sigma (normInvCDF mu sigma y) = y) :
    (QuantileCI sqrt normCDF normInvCDF n q c).LoOrder
        ≤ (QuantileCI sqrt normCDF normInvCDF n q c).HiOrder
    ∧ c ≤ (QuantileCI sqrt normCDF normInvCDF n q c).Confidence := by
  by_cases hc : 1 ≤ c
  · rw [QuantileCI, if_pos hc]
    exact ⟨by dsimp only; omega, by dsimp only; exact hc1⟩
  · by_cases hn : n ≤ quantileCIApproxThreshold
    · exact c6_small sqrt normCDF normInvCDF n q c hq0 hq1 hc0 hc1 hc hn
    · exact c6_large sqrt normCDF normInvCDF n q c hq0 hq1 hc0 hc hn hmono hsymm hinv

/-- C6 witness: n = 5, q = 1/2, c = 9/10, with the witness normal
family Φ(mu,σ,x) = (x-mu)/2 + 1/2 (strictly monotone, symmetric about
mu, inverted by (y-1/2)·2 + mu). -/
theorem c6_witness :
    (QuantileCI id (fun mu _ x => (x - mu) / 2 + 1/2)
        (fun mu _ y => (y - 1/2) * 2 + mu) 5 (1/2) (9/10)).LoOrder
      ≤ (QuantileCI id (fun mu _ x => (x - mu) / 2 + 1/2)
        (fun mu _ y => (y - 1/2) * 2 + mu) 5 (1/2) (9/10)).HiOrder
    ∧ (9/10 : ℚ) ≤ (QuantileCI id (fun mu _ x => (x - mu) / 2 + 1/2)
        (fun mu _ y => (y - 1/2) * 2 + mu) 5 (1/2) (9/10)).Confidence :=
  c6_quantile_ci id (fun mu _ x => (x - mu) / 2 + 1/2)
    (fun mu _ y => (y - 1/2) * 2 + mu) 5 (1/2) (9/10)
    (by norm_num) (by norm_num) (by norm_num) (by norm_num)
    (fun mu sigma => by intro a b hab; dsimp only; linarith)
    (fun mu sigma x => by dsimp only; ring)
    (fun mu sigma y _ _ => by dsimp only; ring)

/-!
### Claim C8 — confidence ≥ 1 returns the full range
-/

/-- C8: for every n, q and requested confidence c ≥ 1, QuantileCI
returns LoOrder = 0, HiOrder = n+1, and Confidence exactly 1. -/
theorem c8_full_range (sqrt : ℚ → ℚ) (normCDF normInvCDF : ℚ → ℚ → ℚ → ℚ)
    (n : ℕ) (q c : ℚ) (h : 1 ≤ c) :
    (QuantileCI sqrt normCDF normInvCDF n q c).LoOrder = 0
    ∧ (QuantileCI sqrt normCDF normInvCDF n q c).HiOrder = (n : ℤ) + 1
    ∧ (QuantileCI sqrt normCDF normInvCDF n q c).Confidence = 1 := by
  rw [QuantileCI, if_pos h]
  exact ⟨rfl, rfl, rfl⟩

/-- C8 witness: n = 3, q = 1/2, c = 1. -/
theorem c8_witness :
    (QuantileCI (fun _ => 0) (fun _ _ _ => 0) (fun _ _ _ => 0) 3 (1/2) 1).LoOrder = 0
    ∧ (QuantileCI (fun _ => 0) (fun _ _ _ => 0) (fun _ _ _ => 0) 3 (1/2) 1).HiOrder = 4
    ∧ (QuantileCI (fun _ => 0) (fun _ _ _ => 0) (fun _ _ _ => 0) 3 (1/2) 1).Confidence = 1 :=
  c8_full_range (fun _ => 0) (fun _ _ _ => 0) (fun _ _ _ => 0) 3 (1/2) 1 (le_refl 1)

/-!
### Claim C10 — Ambiguous initialization at equal modes
-/

/-- C10: on the small-n exact path, when the starting mode bucket
alone already meets the requested confidence (so the accumulation loop
takes no step), Ambiguous is exactly "the bucket right of the starting
mode has mass equal to the mode's mass" — in particular it is true
whenever the binomial distribution has two equal modes. -/
theorem c10_ambiguous_init (sqrt : ℚ → ℚ) (normCDF normInvCDF : ℚ → ℚ → ℚ → ℚ)
    (n : ℕ) (q c : ℚ) (hn : n ≤ quantileCIApproxThreshold) (hc : ¬ 1 ≤ c)
    (hmeets : ¬ (BinomialDist.mk n q).PMF ((qciMode n q : ℤ) : ℚ) < c) :
    (QuantileCI sqrt normCDF normInvCDF n q c).Ambiguous
      = decide ((BinomialDist.mk n q).PMF ((qciMode n q + 1 : ℤ) : ℚ)
          = (BinomialDist.mk n q).PMF ((qciMode n q : ℤ) : ℚ)) := by
  rw [QuantileCI, if_neg hc]
  simp only []
  rw [if_pos (show (BinomialDist.mk n q).N ≤ quantileCIApproxThreshold from hn)]
  rw [show 2 * n + 2 = (2 * n + 1) + 1 from by omega]
  rw [quantileCILoop]
  rw [if_neg (show ¬ ((BinomialDist.mk n q).PMF ((qciMode n q : ℤ) : ℚ) < c
    ∧ (0 < (BinomialDist.mk n q).PMF ((qciMode n q - 1 : ℤ) : ℚ)
      ∨ 0 < (BinomialDist.mk n q).PMF ((qciMode n q + 1 : ℤ) : ℚ))) from
    fun h => hmeets h.1)]

/-- C10 witness: n = 5, q = 1/2 has equal modes 2 and 3; with a tiny
requested confidence the loop takes no step and Ambiguous is true. -/
theorem c10_witness :
    (QuantileCI (fun _ => 0) (fun _ _ _ => 0) (fun _ _ _ => 0) 5 (1/2) (1/1000)).Ambiguous
      = decide ((BinomialDist.mk 5 (1/2)).PMF ((qciMode 5 (1/2) + 1 : ℤ) : ℚ)
          = (BinomialDist.mk 5 (1/2)).PMF ((qciMode 5 (1/2) : ℤ) : ℚ)) :=
  c10_ambiguous_init (fun _ => 0) (fun _ _ _ => 0) (fun _ _ _ => 0) 5 (1/2) (1/1000)
    (by norm_num [quantileCIApproxThreshold]) (by norm_num)
    (by norm_num [BinomialDist.PMF, qciMode, choose,
      show Int.toNat 2 = 2 from rfl, show Nat.choose 5 2 = 10 from rfl])

/-!
### Claim C9 — `QuantileCIResult.FromSample`
-/

/-- Modelled from the spec: a Sample is an ordered sequence of values,
optionally with parallel weights, with a flag recording whether it is
already sorted. -/
structure Sample where
  Xs : List ℚ
  Weights : Option (List ℚ) := none
  Sorted : Bool := false

/-- A float64 result that may be ±Inf (`math.Inf(-1)` / `math.Inf(1)`
in the Go code). -/
inductive RVal where
  | negInf
  | val (q : ℚ)
  | posInf
deriving DecidableEq, Repr

/-- `QuantileCIResult.FromSample` from `quantileci.go`. Panics
(weighted sample, length mismatch, out-of-range index) are modelled as
`none`. -/
def QuantileCIResult.FromSample (q : QuantileCIResult) (s : Sample) :
    Option (RVal × RVal) :=
  if s.Weights ≠ none then none
  else if s.Xs.length ≠ q.N then none
  else
    let xs := if s.Sorted then s.Xs else List.insertionSort (· ≤ ·) s.Xs
    let lo : Option RVal :=
      if q.LoOrder < 1 then some .negInf
      else (xs.get? (q.LoOrder - 1).toNat).map RVal.val
    let hi : Option RVal :=
      if (s.Xs.length : ℤ) ≤ q.HiOrder - 1 then some .posInf
      else if q.HiOrder - 1 < 0 then none
      else (xs.get? (q.HiOrder - 1).toNat).map RVal.val
    match lo, hi with
    | some a, some b => some (a, b)
    | _, _ => none

/-- C9: on an unweighted sample of exactly N values (whose sorted flag
is honest), FromSample returns lo = −∞ when LoOrder < 1 and the
LoOrder-th smallest value otherwise, and hi = +∞ when HiOrder > N and
the HiOrder-th smallest value otherwise (the hypotheses LoOrder ≤ N
and HiOrder ≥ 1 exclude the panicking out-of-range indices). -/
theorem c9_from_sample (r : QuantileCIResult) (s : Sample)
    (hw : s.Weights = none) (hn : s.Xs.length = r.N)
    (hsorted : s.Sorted = true → s.Xs.Sorted (· ≤ ·))
    (hlo : r.LoOrder ≤ (r.N : ℤ)) (hhi : 1 ≤ r.HiOrder) :
    r.FromSample s = some
      ((if r.LoOrder < 1 then RVal.negInf
        else RVal.val ((List.insertionSort (· ≤ ·) s.Xs).getD (r.LoOrder - 1).toNat 0)),
       (if (r.N : ℤ) < r.HiOrder then RVal.posInf
        else RVal.val ((List.insertionSort (· ≤ ·) s.Xs).getD (r.HiOrder - 1).toNat 0))) := by
  rw [QuantileCIResult.FromSample]
  rw [if_neg (show ¬ s.Weights ≠ none from fun h => h hw)]
  rw [if_neg (show ¬ s.Xs.length ≠ r.N from fun h => h hn)]
  have hxs : (if s.Sorted then s.Xs else List.insertionSort (· ≤ ·) s.Xs)
      = List.insertionSort (· ≤ ·) s.Xs := by
    cases hs : s.Sorted with
    | false => rw [if_neg (by simp)]
    | true =>
      rw [if_pos (by simp)]
      haveI : IsAntisymm ℚ (· ≤ ·) := ⟨fun _ _ => le_antisymm⟩
      exact List.eq_of_perm_of_sorted (List.perm_insertionSort _ _).symm (hsorted hs)
        (List.sorted_insertionSort _ _)
  simp only []
  rw [hxs]
  have hlen : (List.insertionSort (· ≤ ·) s.Xs).length = r.N := by
    rw [(List.perm_insertionSort _ _).length_eq]
    exact hn
  by_cases hl : r.LoOrder < 1
  · rw [if_pos hl, if_pos hl]
    by_cases hh : (r.N : ℤ) < r.HiOrder
    · rw [if_pos (show (s.Xs.length : ℤ) ≤ r.HiOrder - 1 from by rw [hn]; omega),
        if_pos hh]
    · rw [if_neg (show ¬ (s.Xs.length : ℤ) ≤ r.HiOrder - 1 from by rw [hn]; omega),
        if_neg (show ¬ r.HiOrder - 1 < 0 from by omega), if_neg hh]
      have hbound : (r.HiOrder - 1).toNat < (List.insertionSort (· ≤ ·) s.Xs).length := by
        rw [hlen]; omega
      rw [List.get?_eq_get hbound, List.getD_eq_getElem _ _ hbound]
      rfl
  · rw [if_neg hl, if_neg hl]
    have hlbound : (r.LoOrder - 1).toNat < (List.insertionSort (· ≤ ·) s.Xs).length := by
      rw [hlen]; omega
    rw [List.get?_eq_get hlbound, List.getD_eq_getElem _ _ hlbound]
    by_cases hh : (r.N : ℤ) < r.HiOrder
    · rw [if_pos (show (s.Xs.length : ℤ) ≤ r.HiOrder - 1 from by rw [hn]; omega),
        if_pos hh]
      rfl
    · rw [if_neg (show ¬ (s.Xs.length : ℤ) ≤ r.HiOrder - 1 from by rw [hn]; omega),
        if_neg (show ¬ r.HiOrder - 1 < 0 from by omega), if_neg hh]
      have hbound : (r.HiOrder - 1).toNat < (List.insertionSort (· ≤ ·) s.Xs).length := by
        rw [hlen]; omega
      rw [List.get?_eq_get hbound, List.getD_eq_getElem _ _ hbound]
      rfl

/-- C9 witness: the sorted 1..4 sample with LoOrder = 0 and
HiOrder = 5 yields (−∞, +∞). -/
theorem c9_witness :
    (QuantileCIResult.mk (1/2) 4 1 0 5 false).FromSample ⟨[1, 2, 3, 4], none, true⟩
      = some (RVal.negInf, RVal.posInf) := by
  have h := c9_from_sample ⟨1/2, 4, 1, 0, 5, false⟩ ⟨[1, 2, 3, 4], none, true⟩
    rfl rfl (fun _ => by norm_num [List.sorted_cons]) (by norm_num) (by norm_num)
  rw [h]
  norm_num

end MoreMath
